import Mathlib

/-!
Verification of the bittorrent-rs core against its specification.

Bytes are modelled as `Nat` (values < 256 where the source guarantees it),
Rust `i64` as `Int` with explicit range checks where the source performs
them, `u32`/`u64` casts as `% 2^32` / `% 2^64`, `Vec<T>` as `List T`,
`BTreeMap<Vec<u8>, V>` as a key-sorted association list, and
`HashMap<usize, V>` as an association list.  Fallible functions return
`Except BittorrentError`; a Rust method on `&mut self` that can fail
without consuming the receiver is modelled as returning the new state
alongside the result.
-/

/-- Error kinds of `src/error.rs` (`BittorrentError`).  The source attaches a
human-readable `String` to each kind; messages are reproduced except that
single-quote characters and interpolated values are omitted. -/
inductive BittorrentError
  | bencodeError (msg : String)
  | invalidTorrent (msg : String)
  | trackerError (msg : String)
  | peerError (msg : String)
  | pieceError (msg : String)
  | storageError (msg : String)
deriving DecidableEq, Repr

/-- Bencode values, from `src/bencode/value.rs` (`BencodeValue`).  The Rust
`Dict` is a `BTreeMap<Vec<u8>, BencodeValue>`; it is modelled as an
association list whose keys are maintained in strictly ascending
lexicographic byte order by the insertion function below. -/
inductive BencodeValue
  | integer (n : Int)
  | string (s : List Nat)
  | list (items : List BencodeValue)
  | dict (pairs : List (List Nat × BencodeValue))
deriving Repr

/-- Lexicographic byte-order comparison of `Vec<u8>` keys (the derived `Ord`
used by the Rust `BTreeMap`). -/
def keyLt : List Nat → List Nat → Bool
  | [], [] => false
  | [], _ :: _ => true
  | _ :: _, [] => false
  | a :: as_, b :: bs => if a < b then true else if b < a then false else keyLt as_ bs

/-- `BTreeMap::insert`: insert into a key-sorted association list, replacing
an existing binding of the same key. -/
def btree_insert : List (List Nat × BencodeValue) → List Nat → BencodeValue →
    List (List Nat × BencodeValue)
  | [], k, v => [(k, v)]
  | (k', v') :: t, k, v =>
    if keyLt k k' then (k, v) :: (k', v') :: t
    else if k = k' then (k, v) :: t
    else (k', v') :: btree_insert t k v

/-- `BTreeMap::get` on the sorted association-list model. -/
def btree_get (m : List (List Nat × BencodeValue)) (k : List Nat) : Option BencodeValue :=
  (m.find? (fun p => p.1 = k)).map (·.2)

/-- ASCII decimal digits of a natural number, most significant first
(the byte sequence produced by Rust's `to_string` for a non-negative value). -/
def natDecimal (n : Nat) : List Nat :=
  if n = 0 then [48] else ((Nat.digits 10 n).reverse).map (fun d => d + 48)

/-- Byte sequence of Rust's `i64::to_string`: a `-` sign for negative values
followed by the decimal magnitude. -/
def intDecimal (i : Int) : List Nat :=
  if i < 0 then 45 :: natDecimal (-i).toNat else natDecimal i.toNat

/-- `b` is an ASCII decimal digit. -/
def isDigit (b : Nat) : Bool := 48 ≤ b && b ≤ 57

/-- Most-significant-first accumulation of ASCII digits. -/
def digitsToNat (l : List Nat) : Nat := l.foldl (fun a b => a * 10 + (b - 48)) 0

/-- Rust `str::parse::<i64>()`: an optional `+` or `-` sign followed by one or
more ASCII digits, with the value required to fit in a signed 64-bit
integer.  (The source first checks the bytes with `str::from_utf8`; a byte
sequence that fails that check also fails the digit test here, and both
paths produce the same error in the source.) -/
def parse_i64 (s : List Nat) : Option Int :=
  let signDigits : Bool × List Nat :=
    match s with
    | 43 :: t => (false, t)
    | 45 :: t => (true, t)
    | t => (false, t)
  let neg := signDigits.1
  let ds := signDigits.2
  if ds.isEmpty then none
  else if ds.all isDigit then
    let n := digitsToNat ds
    if neg then
      if n ≤ 2 ^ 63 then some (-(n : Int)) else none
    else
      if n ≤ 2 ^ 63 - 1 then some (n : Int) else none
  else none

/-- Rust `str::parse::<usize>()` on a 64-bit target: an optional `+` sign
followed by one or more ASCII digits, value below `2^64`. -/
def parse_usize (s : List Nat) : Option Nat :=
  let ds : List Nat := match s with | 43 :: t => t | t => t
  if ds.isEmpty then none
  else if ds.all isDigit then
    let n := digitsToNat ds
    if n ≤ 2 ^ 64 - 1 then some n else none
  else none

/-- `decode_integer` of `src/bencode/decoder.rs`, applied to the bytes after
the leading `i`.  The source scans `*pos` forward to the first `e`
(byte 101), parses the scanned span as an `i64`, and skips the `e`. -/
def decode_integer (data : List Nat) : Except BittorrentError (BencodeValue × List Nat) :=
  match data.drop ((data.takeWhile (fun b => b ≠ 101)).length) with
  | [] => .error (.bencodeError "Unterminated integer")
  | _ :: rest =>
    match parse_i64 (data.takeWhile (fun b => b ≠ 101)) with
    | none => .error (.bencodeError "Invalid integer")
    | some n => .ok (.integer n, rest)

/-- `decode_string` of `src/bencode/decoder.rs`, applied to the bytes starting
at the length field.  The source scans to the first `:` (byte 58), parses
the span as a `usize` length, skips the `:`, and takes that many bytes
(erroring when `*pos + len > data.len()`). -/
def decode_string (data : List Nat) : Except BittorrentError (BencodeValue × List Nat) :=
  match data.drop ((data.takeWhile (fun b => b ≠ 58)).length) with
  | [] => .error (.bencodeError "Invalid string length")
  | _ :: rest =>
    match parse_usize (data.takeWhile (fun b => b ≠ 58)) with
    | none => .error (.bencodeError "Invalid string length")
    | some len =>
      if rest.length < len then .error (.bencodeError "String length exceeds data")
      else .ok (.string (rest.take len), rest.drop len)

mutual

/-- `decode_value` of `src/bencode/decoder.rs`.  The source recurses while a
mutable position advances through the slice; here the unconsumed suffix is
passed explicitly and `fuel` bounds the recursion depth.  Every recursive
step of the source consumes at least one byte, so the top-level fuel of
`data.length + 1` used by `decode` never runs out; the fuel-exhaustion
branch is an artifact of the embedding. -/
def decode_value : Nat → List Nat → Except BittorrentError (BencodeValue × List Nat)
  | 0, _ => .error (.bencodeError "recursion fuel exhausted")
  | _ + 1, [] => .error (.bencodeError "Unexpected end of input")
  | fuel + 1, b :: bs =>
    if b = 105 then decode_integer bs
    else if b = 108 then decode_list fuel bs []
    else if b = 100 then decode_dict fuel bs []
    else if isDigit b then decode_string (b :: bs)
    else .error (.bencodeError "Invalid bencode token")

/-- The `while` loop of `decode_list`: the leading `l` has been consumed by
`decode_value`; elements accumulate in order until the closing `e`. -/
def decode_list : Nat → List Nat → List BencodeValue →
    Except BittorrentError (BencodeValue × List Nat)
  | 0, _, _ => .error (.bencodeError "recursion fuel exhausted")
  | _ + 1, [], _ => .error (.bencodeError "Unterminated list")
  | fuel + 1, b :: bs, acc =>
    if b = 101 then .ok (.list acc, bs)
    else
      match decode_value fuel (b :: bs) with
      | .error e => .error e
      | .ok (v, rest) => decode_list fuel rest (acc ++ [v])

/-- The `while` loop of `decode_dict`: the leading `d` has been consumed by
`decode_value`; each iteration parses a string key and a value and inserts
them into the `BTreeMap`.  The non-string-key branch mirrors the source's
`match` arm and is unreachable because `decode_string` only returns
strings. -/
def decode_dict : Nat → List Nat → List (List Nat × BencodeValue) →
    Except BittorrentError (BencodeValue × List Nat)
  | 0, _, _ => .error (.bencodeError "recursion fuel exhausted")
  | _ + 1, [], _ => .error (.bencodeError "Unterminated dictionary")
  | fuel + 1, b :: bs, acc =>
    if b = 101 then .ok (.dict acc, bs)
    else
      match decode_string (b :: bs) with
      | .error e => .error e
      | .ok (.string k, rest) =>
        match decode_value fuel rest with
        | .error e => .error e
        | .ok (v, rest2) => decode_dict fuel rest2 (btree_insert acc k v)
      | .ok _ => .error (.bencodeError "Dictionary key must be a string")

end

/-- `decode` of `src/bencode/decoder.rs`: decode one value from the front of
the input (trailing bytes are ignored, as in the source, which returns only
the value and discards the final position). -/
def decode (data : List Nat) : Except BittorrentError BencodeValue :=
  match decode_value (data.length + 1) data with
  | .ok (v, _) => .ok v
  | .error e => .error e

mutual

/-- `encode` / `encode_into` of `src/bencode/encoder.rs`. -/
def encode : BencodeValue → List Nat
  | .integer n => 105 :: (intDecimal n ++ [101])
  | .string s => natDecimal s.length ++ 58 :: s
  | .list items => 108 :: (encode_items items ++ [101])
  | .dict pairs => 100 :: (encode_pairs pairs ++ [101])

/-- The element loop of `encode_into` for lists. -/
def encode_items : List BencodeValue → List Nat
  | [] => []
  | v :: t => encode v ++ encode_items t

/-- The key-value loop of `encode_into` for dictionaries: each key is emitted
as a length-prefixed byte string followed by the encoded value, in the
stored (sorted) order. -/
def encode_pairs : List (List Nat × BencodeValue) → List Nat
  | [] => []
  | (k, v) :: t => natDecimal k.length ++ 58 :: k ++ encode v ++ encode_pairs t

end

/-- ASCII byte list of a Lean string literal (used only to write concrete
test vectors compactly). -/
def ascii (s : String) : List Nat := s.toList.map Char.toNat

/-! ### Well-formedness of in-memory bencode values

A `BencodeValue` constructible in the Rust program satisfies: integers fit
in `i64`; byte strings hold bytes and have a length representable as
`usize`; dictionary keys are byte strings kept in strictly ascending order
by the `BTreeMap`. -/

/-- Keys are strictly ascending: every key is `keyLt`-below all later keys. -/
def wfKeys : List (List Nat) → Bool
  | [] => true
  | k :: t => t.all (fun k2 => keyLt k k2) && wfKeys t

mutual

def wfB : BencodeValue → Bool
  | .integer n => decide (-(2 ^ 63 : Int) ≤ n) && decide (n < 2 ^ 63)
  | .string s => decide (s.length < 2 ^ 64) && s.all (fun b => decide (b < 256))
  | .list vs => wfItems vs
  | .dict ps => wfKeys (ps.map Prod.fst) && wfPairs ps

def wfItems : List BencodeValue → Bool
  | [] => true
  | v :: t => wfB v && wfItems t

def wfPairs : List (List Nat × BencodeValue) → Bool
  | [] => true
  | (k, v) :: t =>
    decide (k.length < 2 ^ 64) && k.all (fun b => decide (b < 256)) && wfB v && wfPairs t

end

/-! ### Fuel bounds for the decoder -/

mutual

/-- Sufficient fuel to decode the encoding of `v`. -/
def needV : BencodeValue → Nat
  | .integer _ => 1
  | .string _ => 1
  | .list vs => 1 + needItems vs
  | .dict ps => 1 + needPairs ps

def needItems : List BencodeValue → Nat
  | [] => 1
  | v :: t => 1 + max (needV v) (needItems t)

def needPairs : List (List Nat × BencodeValue) → Nat
  | [] => 1
  | (_, v) :: t => 1 + max (needV v) (needPairs t)

end

/-! ### Decimal digit lemmas -/

theorem natDecimal_ne_nil (n : Nat) : natDecimal n ≠ [] := by
  unfold natDecimal
  split
  · simp
  · next h =>
    have hd : Nat.digits 10 n ≠ [] := Nat.digits_ne_nil_iff_ne_zero.mpr h
    simp [hd]

theorem natDecimal_digits (n : Nat) : ∀ b ∈ natDecimal n, 48 ≤ b ∧ b ≤ 57 := by
  intro b hb
  unfold natDecimal at hb
  split at hb
  · simp at hb; omega
  · simp only [List.mem_map, List.mem_reverse] at hb
    obtain ⟨d, hd, rfl⟩ := hb
    have := Nat.digits_lt_base (by norm_num) hd
    omega

theorem digitsToNat_natDecimal (n : Nat) : digitsToNat (natDecimal n) = n := by
  unfold natDecimal digitsToNat
  split
  · simp; omega
  · have key : ∀ (L : List Nat) (a : Nat),
        (L.reverse.map (fun d => d + 48)).foldl (fun a b => a * 10 + (b - 48)) a
          = a * 10 ^ L.length + Nat.ofDigits 10 L := by
      intro L
      induction L with
      | nil => simp
      | cons d T ih =>
        intro a
        simp only [List.reverse_cons, List.map_append, List.foldl_append, ih,
          List.map_cons, List.map_nil, List.foldl_cons, List.foldl_nil,
          Nat.ofDigits_cons, List.length_cons]
        have : d + 48 - 48 = d := by omega
        rw [this]
        ring
    rw [key]
    simp [Nat.ofDigits_digits]


theorem parse_usize_natDecimal (n : Nat) (h : n < 2 ^ 64) :
    parse_usize (natDecimal n) = some n := by
  have hne := natDecimal_ne_nil n
  have hdig := natDecimal_digits n
  match hnd : natDecimal n with
  | [] => exact absurd hnd hne
  | b :: t =>
    have hb := hdig b (by rw [hnd]; exact List.mem_cons_self b t)
    have hall : (b :: t).all isDigit = true := by
      rw [← hnd]
      simp only [List.all_eq_true]
      intro x hx
      have := hdig x hx
      simp [isDigit]; omega
    unfold parse_usize
    have hm : (match b :: t with | 43 :: t => t | t => t) = b :: t := by
      split
      · next heq => cases heq; omega
      · rfl
    rw [hm]
    simp only [List.isEmpty_cons, Bool.false_eq_true, if_false, hall, if_true]
    have hval : digitsToNat (b :: t) = n := by rw [← hnd]; exact digitsToNat_natDecimal n
    rw [hval]
    split
    · rfl
    · omega

theorem parse_i64_intDecimal (n : Int) (hlo : -(2 ^ 63) ≤ n) (hhi : n < 2 ^ 63) :
    parse_i64 (intDecimal n) = some n := by
  unfold intDecimal
  by_cases hneg : n < 0
  · simp only [hneg, if_true]
    have hne := natDecimal_ne_nil (-n).toNat
    have hdig := natDecimal_digits (-n).toNat
    match hnd : natDecimal (-n).toNat with
    | [] => exact absurd hnd hne
    | b :: t =>
      have hb := hdig b (by rw [hnd]; exact List.mem_cons_self b t)
      have hall : (b :: t).all isDigit = true := by
        rw [← hnd]
        simp only [List.all_eq_true]
        intro x hx
        have := hdig x hx
        simp [isDigit]; omega
      unfold parse_i64
      simp only [List.isEmpty_cons, Bool.false_eq_true, if_false, hall, if_true]
      have hval : digitsToNat (b :: t) = (-n).toNat := by
        rw [← hnd]; exact digitsToNat_natDecimal _
      rw [hval]
      have hle : (-n).toNat ≤ 2 ^ 63 := by omega
      simp only [hle, if_true]
      congr 1
      omega
  · simp only [hneg, if_false]
    have hge : 0 ≤ n := by omega
    have hne := natDecimal_ne_nil n.toNat
    have hdig := natDecimal_digits n.toNat
    match hnd : natDecimal n.toNat with
    | [] => exact absurd hnd hne
    | b :: t =>
      have hb := hdig b (by rw [hnd]; exact List.mem_cons_self b t)
      have hall : (b :: t).all isDigit = true := by
        rw [← hnd]
        simp only [List.all_eq_true]
        intro x hx
        have := hdig x hx
        simp [isDigit]; omega
      unfold parse_i64
      have hm : (match b :: t with
          | 43 :: t => ((false : Bool), t)
          | 45 :: t => ((true : Bool), t)
          | t => ((false : Bool), t)) = ((false : Bool), b :: t) := by
        split
        · next heq => cases heq; omega
        · next heq => cases heq; omega
        · rfl
      rw [hm]
      simp only [List.isEmpty_cons, Bool.false_eq_true, if_false, hall, if_true]
      have hval : digitsToNat (b :: t) = n.toNat := by
        rw [← hnd]; exact digitsToNat_natDecimal _
      rw [hval]
      have hle : n.toNat ≤ 2 ^ 63 - 1 := by omega
      simp only [hle, if_true]
      congr 1
      omega

theorem takeWhile_append_all {p : Nat → Bool} (l : List Nat) (hl : ∀ x ∈ l, p x = true)
    (b : Nat) (hb : p b = false) (t : List Nat) : (l ++ b :: t).takeWhile p = l := by
  induction l with
  | nil => simp [List.takeWhile_cons, hb]
  | cons a l ih =>
    have ha : p a = true := hl a (List.mem_cons_self a l)
    simp only [List.cons_append, List.takeWhile_cons, ha, if_true]
    rw [ih (fun x hx => hl x (List.mem_cons_of_mem a hx))]

theorem intDecimal_bytes (n : Int) : ∀ b ∈ intDecimal n, b = 45 ∨ (48 ≤ b ∧ b ≤ 57) := by
  intro b hb
  unfold intDecimal at hb
  split at hb
  · rcases List.mem_cons.mp hb with h | h
    · left; exact h
    · right; exact natDecimal_digits _ b h
  · right; exact natDecimal_digits _ b hb

theorem decode_integer_encode (n : Int) (hlo : -(2 ^ 63) ≤ n) (hhi : n < 2 ^ 63)
    (rest : List Nat) :
    decode_integer (intDecimal n ++ 101 :: rest) = .ok (.integer n, rest) := by
  have htw : (intDecimal n ++ 101 :: rest).takeWhile (fun b => b ≠ 101) = intDecimal n := by
    apply takeWhile_append_all
    · intro x hx
      rcases intDecimal_bytes n x hx with h | h <;> simp <;> omega
    · simp
  unfold decode_integer
  rw [htw, List.drop_left]
  simp only [parse_i64_intDecimal n hlo hhi]

theorem decode_string_encode (s : List Nat) (h : s.length < 2 ^ 64) (rest : List Nat) :
    decode_string (natDecimal s.length ++ 58 :: (s ++ rest)) = .ok (.string s, rest) := by
  have htw : (natDecimal s.length ++ 58 :: (s ++ rest)).takeWhile (fun b => b ≠ 58)
      = natDecimal s.length := by
    apply takeWhile_append_all
    · intro x hx
      have := natDecimal_digits _ x hx
      simp; omega
    · simp
  unfold decode_string
  rw [htw, List.drop_left]
  simp only [parse_usize_natDecimal s.length h]
  have hlen : ¬ ((s ++ rest).length < s.length) := by simp
  simp only [hlen, if_false, List.take_left, List.drop_left]

theorem keyLt_irrefl (k : List Nat) : keyLt k k = false := by
  induction k with
  | nil => rfl
  | cons a t ih => simp [keyLt, ih]

theorem keyLt_asymm : ∀ a b : List Nat, keyLt a b = true → keyLt b a = false
  | [], [] => by simp [keyLt]
  | [], _ :: _ => by simp [keyLt]
  | _ :: _, [] => by simp [keyLt]
  | a :: as_, b :: bs => by
    simp only [keyLt]
    rcases Nat.lt_trichotomy a b with h | h | h
    · intro _
      rw [if_neg (by omega), if_pos h]
    · subst h
      simp only [Nat.lt_irrefl, if_false]
      exact keyLt_asymm as_ bs
    · rw [if_neg (by omega), if_pos h]
      intro hcontra
      exact absurd hcontra (by simp)

theorem btree_insert_append (m : List (List Nat × BencodeValue)) (k : List Nat)
    (v : BencodeValue) (h : ∀ p ∈ m, keyLt p.1 k = true) :
    btree_insert m k v = m ++ [(k, v)] := by
  induction m with
  | nil => rfl
  | cons p t ih =>
    obtain ⟨k', v'⟩ := p
    have hk' : keyLt k' k = true := h (k', v') (List.mem_cons_self _ _)
    have h1 : keyLt k k' = false := keyLt_asymm k' k hk'
    have h2 : ¬ k = k' := by
      rintro rfl
      rw [keyLt_irrefl] at hk'
      exact absurd hk' (by simp)
    simp only [btree_insert, h1, Bool.false_eq_true, if_false, h2, List.cons_append]
    rw [ih (fun p hp => h p (List.mem_cons_of_mem _ hp))]

theorem wfKeys_append_left {xs ys : List (List Nat)} (h : wfKeys (xs ++ ys) = true) :
    ∀ x ∈ xs, ∀ y ∈ ys, keyLt x y = true := by
  induction xs with
  | nil => intro x hx; exact absurd hx (List.not_mem_nil x)
  | cons a t ih =>
    rw [List.cons_append] at h
    simp only [wfKeys, Bool.and_eq_true, List.all_eq_true] at h
    intro x hx y hy
    rcases List.mem_cons.mp hx with rfl | hx'
    · exact h.1 y (List.mem_append_right t hy)
    · exact ih h.2 x hx' y hy

theorem wfKeys_append_right {xs ys : List (List Nat)} (h : wfKeys (xs ++ ys) = true) :
    wfKeys ys = true := by
  induction xs with
  | nil => exact h
  | cons a t ih =>
    rw [List.cons_append] at h
    simp only [wfKeys, Bool.and_eq_true] at h
    exact ih h.2

theorem encode_head (v : BencodeValue) : ∃ b t, encode v = b :: t ∧ ¬ b = 101 := by
  cases v with
  | integer n => exact ⟨105, intDecimal n ++ [101], by simp [encode], by omega⟩
  | string s =>
    obtain ⟨b, t, hbt⟩ : ∃ b t, natDecimal s.length = b :: t := by
      match hnd : natDecimal s.length with
      | [] => exact absurd hnd (natDecimal_ne_nil _)
      | b :: t => exact ⟨b, t, rfl⟩
    have hb := natDecimal_digits s.length b (by rw [hbt]; exact List.mem_cons_self _ _)
    exact ⟨b, t ++ 58 :: s, by simp [encode, hbt], by omega⟩
  | list items => exact ⟨108, encode_items items ++ [101], by simp [encode], by omega⟩
  | dict pairs => exact ⟨100, encode_pairs pairs ++ [101], by simp [encode], by omega⟩

theorem encode_length_pos (v : BencodeValue) : 1 ≤ (encode v).length := by
  obtain ⟨b, t, hbt, -⟩ := encode_head v
  rw [hbt]
  simp

mutual

theorem needV_le : ∀ v : BencodeValue, needV v ≤ (encode v).length
  | .integer n => by simp [needV, encode]
  | .string s => by simp [needV, encode]; omega
  | .list vs => by
    have h := needItems_le vs
    simp only [needV, encode, List.length_cons, List.length_append,
      List.length_singleton]
    omega
  | .dict ps => by
    have h := needPairs_le ps
    simp only [needV, encode, List.length_cons, List.length_append,
      List.length_singleton]
    omega

theorem needItems_le : ∀ vs : List BencodeValue, needItems vs ≤ 1 + (encode_items vs).length
  | [] => by simp [needItems, encode_items]
  | v :: t => by
    have h1 := needV_le v
    have h2 := needItems_le t
    have h3 := encode_length_pos v
    simp only [needItems, encode_items, List.length_append]
    omega

theorem needPairs_le : ∀ ps : List (List Nat × BencodeValue),
    needPairs ps ≤ 1 + (encode_pairs ps).length
  | [] => by simp [needPairs, encode_pairs]
  | (k, v) :: t => by
    have h1 := needV_le v
    have h2 := needPairs_le t
    simp only [needPairs, encode_pairs, List.length_append, List.length_cons]
    omega

end

mutual

theorem decode_value_encode : ∀ (v : BencodeValue), wfB v = true →
    ∀ fuel, needV v ≤ fuel → ∀ rest,
    decode_value fuel (encode v ++ rest) = .ok (v, rest)
  | .integer n, hw, fuel, hf, rest => by
    have hw' : -(2 ^ 63 : Int) ≤ n ∧ n < 2 ^ 63 := by
      simpa [wfB, Bool.and_eq_true, decide_eq_true_eq] using hw
    cases fuel with
    | zero => simp [needV] at hf
    | succ f =>
      have hdata : encode (.integer n) ++ rest = 105 :: (intDecimal n ++ 101 :: rest) := by
        simp [encode]
      rw [hdata]
      simp only [decode_value]
      rw [if_pos trivial]
      exact decode_integer_encode n hw'.1 hw'.2 rest
  | .string s, hw, fuel, hf, rest => by
    have hs : s.length < 2 ^ 64 := by
      have h' := hw
      simp only [wfB, Bool.and_eq_true, decide_eq_true_eq] at h'
      exact h'.1
    cases fuel with
    | zero => simp [needV] at hf
    | succ f =>
      obtain ⟨b, t, hbt⟩ : ∃ b t, natDecimal s.length = b :: t := by
        match hnd : natDecimal s.length with
        | [] => exact absurd hnd (natDecimal_ne_nil _)
        | b :: t => exact ⟨b, t, rfl⟩
      have hdig := natDecimal_digits s.length b (by rw [hbt]; exact List.mem_cons_self _ _)
      have hdata : encode (.string s) ++ rest = b :: (t ++ 58 :: (s ++ rest)) := by
        simp [encode, hbt]
      rw [hdata]
      simp only [decode_value]
      rw [if_neg (by omega), if_neg (by omega), if_neg (by omega),
        if_pos (by simp only [isDigit, Bool.and_eq_true, decide_eq_true_eq]; omega)]
      have hback : b :: (t ++ 58 :: (s ++ rest)) = natDecimal s.length ++ 58 :: (s ++ rest) := by
        rw [hbt, List.cons_append]
      rw [hback]
      exact decode_string_encode s hs rest
  | .list vs, hw, fuel, hf, rest => by
    have hw' : wfItems vs = true := by simpa [wfB] using hw
    cases fuel with
    | zero => simp [needV] at hf
    | succ f =>
      have hf' : needItems vs ≤ f := by
        simp only [needV] at hf
        omega
      have hdata : encode (.list vs) ++ rest = 108 :: (encode_items vs ++ 101 :: rest) := by
        simp [encode]
      rw [hdata]
      simp only [decode_value]
      rw [if_pos trivial]
      have h := decode_list_encode vs hw' f hf' [] rest
      simpa using h
  | .dict ps, hw, fuel, hf, rest => by
    have hw' : wfKeys (ps.map Prod.fst) = true ∧ wfPairs ps = true := by
      simpa [wfB, Bool.and_eq_true] using hw
    cases fuel with
    | zero => simp [needV] at hf
    | succ f =>
      have hf' : needPairs ps ≤ f := by
        simp only [needV] at hf
        omega
      have hdata : encode (.dict ps) ++ rest = 100 :: (encode_pairs ps ++ 101 :: rest) := by
        simp [encode]
      rw [hdata]
      simp only [decode_value]
      rw [if_pos trivial]
      have h := decode_dict_encode ps hw'.2 f hf' [] rest (by simpa using hw'.1)
      simpa using h

theorem decode_list_encode : ∀ (vs : List BencodeValue), wfItems vs = true →
    ∀ fuel, needItems vs ≤ fuel → ∀ acc rest,
    decode_list fuel (encode_items vs ++ 101 :: rest) acc = .ok (.list (acc ++ vs), rest)
  | [], _, fuel, hf, acc, rest => by
    cases fuel with
    | zero => simp [needItems] at hf
    | succ f =>
      simp only [encode_items, List.nil_append, decode_list]
      rw [if_pos trivial]
      simp
  | v :: t, hw, fuel, hf, acc, rest => by
    have hw' : wfB v = true ∧ wfItems t = true := by
      simpa [wfItems, Bool.and_eq_true] using hw
    cases fuel with
    | zero => simp [needItems] at hf
    | succ f =>
      have hfv : needV v ≤ f := by
        simp only [needItems] at hf
        omega
      have hft : needItems t ≤ f := by
        simp only [needItems] at hf
        omega
      obtain ⟨b, bt, hbt, hbne⟩ := encode_head v
      have hdata : encode_items (v :: t) ++ 101 :: rest
          = b :: (bt ++ (encode_items t ++ 101 :: rest)) := by
        simp [encode_items, hbt]
      rw [hdata]
      simp only [decode_list]
      rw [if_neg hbne]
      have hv : decode_value f (b :: (bt ++ (encode_items t ++ 101 :: rest)))
          = .ok (v, encode_items t ++ 101 :: rest) := by
        have h := decode_value_encode v hw'.1 f hfv (encode_items t ++ 101 :: rest)
        rw [hbt] at h
        simpa using h
      simp only [hv]
      have h := decode_list_encode t hw'.2 f hft (acc ++ [v]) rest
      simpa using h

theorem decode_dict_encode : ∀ (ps : List (List Nat × BencodeValue)), wfPairs ps = true →
    ∀ fuel, needPairs ps ≤ fuel → ∀ acc rest,
    wfKeys (acc.map Prod.fst ++ ps.map Prod.fst) = true →
    decode_dict fuel (encode_pairs ps ++ 101 :: rest) acc = .ok (.dict (acc ++ ps), rest)
  | [], _, fuel, hf, acc, rest, _ => by
    cases fuel with
    | zero => simp [needPairs] at hf
    | succ f =>
      simp only [encode_pairs, List.nil_append, decode_dict]
      rw [if_pos trivial]
      simp
  | (k, v) :: t, hw, fuel, hf, acc, rest, hkeys => by
    have hw' : (k.length < 2 ^ 64 ∧ (∀ x ∈ k, x < 256)) ∧ wfB v = true ∧ wfPairs t = true := by
      simpa [wfPairs, Bool.and_eq_true, decide_eq_true_eq, List.all_eq_true,
        and_assoc] using hw
    cases fuel with
    | zero => simp [needPairs] at hf
    | succ f =>
      have hfv : needV v ≤ f := by
        simp only [needPairs] at hf
        omega
      have hft : needPairs t ≤ f := by
        simp only [needPairs] at hf
        omega
      obtain ⟨b, bt, hbt⟩ : ∃ b bt, natDecimal k.length = b :: bt := by
        match hnd : natDecimal k.length with
        | [] => exact absurd hnd (natDecimal_ne_nil _)
        | b :: bt => exact ⟨b, bt, rfl⟩
      have hdig := natDecimal_digits k.length b (by rw [hbt]; exact List.mem_cons_self _ _)
      have hdata : encode_pairs ((k, v) :: t) ++ 101 :: rest
          = b :: (bt ++ 58 :: (k ++ (encode v ++ (encode_pairs t ++ 101 :: rest)))) := by
        simp [encode_pairs, hbt]
      rw [hdata]
      simp only [decode_dict]
      rw [if_neg (by omega)]
      have hstr : decode_string (b :: (bt ++ 58 :: (k ++ (encode v ++ (encode_pairs t ++ 101 :: rest)))))
          = .ok (.string k, encode v ++ (encode_pairs t ++ 101 :: rest)) := by
        have h := decode_string_encode k hw'.1.1 (encode v ++ (encode_pairs t ++ 101 :: rest))
        rw [hbt] at h
        simpa using h
      simp only [hstr]
      have hv := decode_value_encode v hw'.2.1 f hfv (encode_pairs t ++ 101 :: rest)
      simp only [hv]
      have hins : btree_insert acc k v = acc ++ [(k, v)] := by
        apply btree_insert_append
        intro p hp
        exact wfKeys_append_left hkeys p.1 (List.mem_map_of_mem Prod.fst hp) k
          (by simp)
      rw [hins]
      have hkeys' : wfKeys ((acc ++ [(k, v)]).map Prod.fst ++ t.map Prod.fst) = true := by
        have heq : (acc ++ [(k, v)]).map Prod.fst ++ t.map Prod.fst
            = acc.map Prod.fst ++ ((k, v) :: t).map Prod.fst := by
          simp
        rw [heq]
        exact hkeys
      have h := decode_dict_encode t hw'.2.2 f hft (acc ++ [(k, v)]) rest hkeys'
      simpa using h

end

/-- C6: for every bencode value constructible in memory (any `i64` integer,
any byte string, any list of values, any dictionary from byte-string keys to
values — captured by `wfB`), decoding the encoding of the value yields
exactly the value: `decode (encode v) = ok v`. -/
theorem bencode_decode_encode_roundtrip (v : BencodeValue) (hw : wfB v = true) :
    decode (encode v) = .ok v := by
  unfold decode
  have h := decode_value_encode v hw ((encode v).length + 1)
    (Nat.le_trans (needV_le v) (Nat.le_succ _)) []
  rw [List.append_nil] at h
  rw [h]

/-- Witness for C6 at a concrete dictionary value. -/
theorem bencode_decode_encode_roundtrip_witness :
    wfB (.dict [(ascii "bar", .string (ascii "spam")), (ascii "foo", .integer 42)]) = true ∧
    decode (encode (.dict [(ascii "bar", .string (ascii "spam")), (ascii "foo", .integer 42)]))
      = .ok (.dict [(ascii "bar", .string (ascii "spam")), (ascii "foo", .integer 42)]) :=
  ⟨rfl, bencode_decode_encode_roundtrip _ rfl⟩

/-- C3 counterexample: the decoder does not reject `i-0e` or `i03e`; it
accepts them as the integers 0 and 3, because `decode_integer` delegates to
Rust's permissive `i64` parse. -/
theorem decode_negative_zero_and_leading_zero_accepted :
    decode (ascii "i-0e") = .ok (.integer 0) ∧ decode (ascii "i03e") = .ok (.integer 3) :=
  ⟨rfl, rfl⟩

/-- C3 amended: `i0e` decodes to 0, and the decoder also accepts `i-0e`
(as 0) and `i03e` (as 3) rather than rejecting them, since integer parsing
is delegated to `str::parse::<i64>()`, which permits a redundant sign and
superfluous leading zeros. -/
theorem decode_integer_boundary_values :
    decode (ascii "i0e") = .ok (.integer 0) ∧ decode (ascii "i-0e") = .ok (.integer 0) ∧
    decode (ascii "i03e") = .ok (.integer 3) :=
  ⟨rfl, rfl, rfl⟩

/-! ### SHA-1 (the `sha1` crate's `Sha1` digest, RFC 3174)

Words are `Nat` reduced modulo `2^32`; messages and digests are byte
lists. -/

/-- Left-rotation of a 32-bit word. -/
def rotl32 (n x : Nat) : Nat := ((x <<< n) % 4294967296) ||| (x >>> (32 - n))

/-- Big-endian bytes of a 32-bit word. -/
def be32 (n : Nat) : List Nat := [n / 2 ^ 24 % 256, n / 2 ^ 16 % 256, n / 2 ^ 8 % 256, n % 256]

/-- Big-endian bytes of a 64-bit word. -/
def be64 (n : Nat) : List Nat :=
  [n / 2 ^ 56 % 256, n / 2 ^ 48 % 256, n / 2 ^ 40 % 256, n / 2 ^ 32 % 256,
   n / 2 ^ 24 % 256, n / 2 ^ 16 % 256, n / 2 ^ 8 % 256, n % 256]

/-- Big-endian word from a list of bytes. -/
def word_of_bytes (l : List Nat) : Nat := l.foldl (fun a b => a * 256 + b) 0

/-- SHA-1 padding: `0x80`, zeros to 56 mod 64, then the bit length as a
big-endian 64-bit integer. -/
def sha1_pad (msg : List Nat) : List Nat :=
  msg ++ 128 :: List.replicate ((119 - msg.length % 64) % 64) 0 ++ be64 (msg.length * 8 % 2 ^ 64)

/-- Message-schedule extension: append `n` further words, each the
left-rotation by one of the XOR of the words 3, 8, 14 and 16 positions
back. -/
def sha1_extend (w : List Nat) : Nat → List Nat
  | 0 => w
  | n + 1 =>
    let w' := sha1_extend w n
    w' ++ [rotl32 1 ((((w'.getD (w'.length - 3) 0) ^^^ (w'.getD (w'.length - 8) 0)) ^^^
      (w'.getD (w'.length - 14) 0)) ^^^ (w'.getD (w'.length - 16) 0))]

/-- SHA-1 round function. -/
def sha1_f (t b c d : Nat) : Nat :=
  if t < 20 then (b &&& c) ||| ((b ^^^ 4294967295) &&& d)
  else if t < 40 then (b ^^^ c) ^^^ d
  else if t < 60 then ((b &&& c) ||| (b &&& d)) ||| (c &&& d)
  else (b ^^^ c) ^^^ d

/-- SHA-1 round constants. -/
def sha1_k (t : Nat) : Nat :=
  if t < 20 then 0x5A827999
  else if t < 40 then 0x6ED9EBA1
  else if t < 60 then 0x8F1BBCDC
  else 0xCA62C1D6

/-- One SHA-1 block compression. -/
def sha1_compress (st : Nat × Nat × Nat × Nat × Nat) (blk : List Nat) :
    Nat × Nat × Nat × Nat × Nat :=
  let w16 := (List.range 16).map (fun i => word_of_bytes ((blk.drop (4 * i)).take 4))
  let ws := sha1_extend w16 64
  let r := ws.enum.foldl
    (fun st tw =>
      let a := st.1
      let b := st.2.1
      let c := st.2.2.1
      let d := st.2.2.2.1
      let e := st.2.2.2.2
      let tmp := (rotl32 5 a + sha1_f tw.1 b c d + e + sha1_k tw.1 + tw.2) % 4294967296
      (tmp, a, rotl32 30 b, c, d)) st
  ((st.1 + r.1) % 4294967296, (st.2.1 + r.2.1) % 4294967296,
   (st.2.2.1 + r.2.2.1) % 4294967296, (st.2.2.2.1 + r.2.2.2.1) % 4294967296,
   (st.2.2.2.2 + r.2.2.2.2) % 4294967296)

/-- SHA-1 digest (20 bytes) of a byte list. -/
def sha1 (msg : List Nat) : List Nat :=
  let padded := sha1_pad msg
  let blocks := (List.range (padded.length / 64)).map (fun i => (padded.drop (64 * i)).take 64)
  let st := blocks.foldl sha1_compress (0x67452301, 0xEFCDAB89, 0x98BADCFE, 0x10325476, 0xC3D2E1F0)
  be32 st.1 ++ be32 st.2.1 ++ be32 st.2.2.1 ++ be32 st.2.2.2.1 ++ be32 st.2.2.2.2

set_option maxRecDepth 100000 in
/-- Sanity check of the SHA-1 embedding against the RFC 3174 test vector. -/
theorem sha1_abc_vector : sha1 (ascii "abc") = [0xa9, 0x99, 0x3e, 0x36, 0x47, 0x06, 0x81, 0x6a,
    0xba, 0x3e, 0x25, 0x71, 0x78, 0x50, 0xc2, 0x6c, 0x9c, 0xd0, 0xd8, 0x9d] := by decide

/-! ### Metainfo layer (`src/torrent/metainfo.rs`, `src/torrent/piece.rs`) -/

/-- A UTF-8 continuation byte (`0x80..=0xBF`). -/
def utf8_cont (b : Nat) : Bool := 128 ≤ b && b ≤ 191

/-- Validity of a byte sequence as UTF-8, as checked by Rust's
`str::from_utf8` (RFC 3629: no overlong forms, no surrogates, maximum
code point `U+10FFFF`). -/
def utf8Valid : List Nat → Bool
  | [] => true
  | b :: bs =>
    if b ≤ 127 then utf8Valid bs
    else if 194 ≤ b && b ≤ 223 then
      match bs with
      | c1 :: t => utf8_cont c1 && utf8Valid t
      | [] => false
    else if b = 224 then
      match bs with
      | c1 :: c2 :: t => (160 ≤ c1 && c1 ≤ 191) && utf8_cont c2 && utf8Valid t
      | _ => false
    else if (225 ≤ b && b ≤ 236) || b = 238 || b = 239 then
      match bs with
      | c1 :: c2 :: t => utf8_cont c1 && utf8_cont c2 && utf8Valid t
      | _ => false
    else if b = 237 then
      match bs with
      | c1 :: c2 :: t => (128 ≤ c1 && c1 ≤ 159) && utf8_cont c2 && utf8Valid t
      | _ => false
    else if b = 240 then
      match bs with
      | c1 :: c2 :: c3 :: t =>
        (144 ≤ c1 && c1 ≤ 191) && utf8_cont c2 && utf8_cont c3 && utf8Valid t
      | _ => false
    else if 241 ≤ b && b ≤ 243 then
      match bs with
      | c1 :: c2 :: c3 :: t => utf8_cont c1 && utf8_cont c2 && utf8_cont c3 && utf8Valid t
      | _ => false
    else if b = 244 then
      match bs with
      | c1 :: c2 :: c3 :: t =>
        (128 ≤ c1 && c1 ≤ 143) && utf8_cont c2 && utf8_cont c3 && utf8Valid t
      | _ => false
    else false

/-- `BencodeValue::as_integer`. -/
def BencodeValue.as_integer : BencodeValue → Option Int
  | .integer n => some n
  | _ => none

/-- `BencodeValue::as_bytes`. -/
def BencodeValue.as_bytes : BencodeValue → Option (List Nat)
  | .string s => some s
  | _ => none

/-- `BencodeValue::as_str`: the byte string when it is valid UTF-8 (Rust
returns `&str`; the value is the same byte sequence). -/
def BencodeValue.as_str (v : BencodeValue) : Option (List Nat) :=
  match v with
  | .string s => if utf8Valid s then some s else none
  | _ => none

/-- `BencodeValue::as_list`. -/
def BencodeValue.as_list : BencodeValue → Option (List BencodeValue)
  | .list l => some l
  | _ => none

/-- `BencodeValue::as_dict`. -/
def BencodeValue.as_dict : BencodeValue → Option (List (List Nat × BencodeValue))
  | .dict d => some d
  | _ => none

/-- Rust `as u64` applied to an `i64` value: reduction modulo `2^64`
(two's-complement reinterpretation). -/
def toU64 (n : Int) : Nat := (n % 2 ^ 64).toNat

/-- `Pieces::from_bytes` of `src/torrent/piece.rs`: the pieces blob must be a
multiple of 20 bytes and is split into 20-byte hashes.  (`PieceHash::from_slice`
re-checks the length 20; `chunks_exact(20)` makes that check always pass.) -/
def pieces_from_bytes (data : List Nat) : Except BittorrentError (List (List Nat)) :=
  if data.length % 20 ≠ 0 then
    .error (.invalidTorrent "Pieces length must be multiple of 20")
  else
    .ok ((List.range (data.length / 20)).map (fun i => (data.drop (20 * i)).take 20))

/-- `FileInfo` of `src/torrent/metainfo.rs`. -/
structure FileInfo where
  path : List (List Nat)
  length : Nat
deriving DecidableEq, Repr

/-- `TorrentInfo` of `src/torrent/metainfo.rs`. -/
structure TorrentInfo where
  name : List Nat
  piece_length : Nat
  pieces : List (List Nat)
  files : List FileInfo
  total_length : Nat
deriving DecidableEq, Repr

/-- The `path` extraction inside the multi-file loop: every component must be
a valid UTF-8 string (`as_str`), collected in order; the first failure
aborts. -/
def path_components : List BencodeValue → Option (List (List Nat))
  | [] => some []
  | v :: t =>
    match v.as_str with
    | none => none
    | some s => (path_components t).map (fun r => s :: r)

/-- The `for file_value in files_list` loop of `TorrentInfo::from_bencode`:
accumulates `FileInfo` entries and the wrapping-`u64` running total. -/
def parse_file_entries : List BencodeValue → List FileInfo → Nat →
    Except BittorrentError (List FileInfo × Nat)
  | [], acc, total => .ok (acc, total)
  | fv :: t, acc, total =>
    match fv.as_dict with
    | none => .error (.invalidTorrent "File entry must be a dict")
    | some fd =>
      match (btree_get fd (ascii "length")).bind BencodeValue.as_integer with
      | none => .error (.invalidTorrent "Missing file length")
      | some len =>
        match (btree_get fd (ascii "path")).bind BencodeValue.as_list with
        | none => .error (.invalidTorrent "Missing file path")
        | some pl =>
          match path_components pl with
          | none => .error (.invalidTorrent "Invalid path component")
          | some path =>
            parse_file_entries t (acc ++ [⟨path, toU64 len⟩]) ((total + toU64 len) % 2 ^ 64)

/-- `TorrentInfo::from_bencode` of `src/torrent/metainfo.rs`.  Note: no
check is made on the sign or size of `piece length` (it is cast with
`as u64`), and the `length` key is tested before `files`. -/
def TorrentInfo.from_bencode (value : BencodeValue) : Except BittorrentError TorrentInfo :=
  match value.as_dict with
  | none => .error (.invalidTorrent "Info must be a dict")
  | some dict =>
    match (btree_get dict (ascii "name")).bind BencodeValue.as_str with
    | none => .error (.invalidTorrent "Missing name field")
    | some name =>
      match (btree_get dict (ascii "piece length")).bind BencodeValue.as_integer with
      | none => .error (.invalidTorrent "Missing piece length field")
      | some piece_length_raw =>
        match (btree_get dict (ascii "pieces")).bind BencodeValue.as_bytes with
        | none => .error (.invalidTorrent "Missing pieces field")
        | some pieces_bytes =>
          match pieces_from_bytes pieces_bytes with
          | .error e => .error e
          | .ok pieces =>
            match btree_get dict (ascii "length") with
            | some length_value =>
              match length_value.as_integer with
              | none => .error (.invalidTorrent "Invalid length field")
              | some len =>
                .ok ⟨name, toU64 piece_length_raw, pieces,
                  [⟨[name], toU64 len⟩], toU64 len⟩
            | none =>
              match btree_get dict (ascii "files") with
              | some files_value =>
                match files_value.as_list with
                | none => .error (.invalidTorrent "Invalid files field")
                | some files_list =>
                  match parse_file_entries files_list [] 0 with
                  | .error e => .error e
                  | .ok (files, total) =>
                    .ok ⟨name, toU64 piece_length_raw, pieces, files, total⟩
              | none => .error (.invalidTorrent "Missing length or files field")

/-- The byte-scanning loop of `extract_info_dict`: every `d` or `l` byte
increments the depth, every `e` byte decrements it, and the scan stops one
past the `e` that brings the depth to zero.  The counter is incremented and
decremented for bytes anywhere in the input — including inside byte strings
and integers — exactly as in the source, which does not parse the structure
it scans. -/
def scan_depth : List Nat → Int → Nat → Option Nat
  | [], _, _ => none
  | b :: bs, depth, i =>
    if b = 100 || b = 108 then scan_depth bs (depth + 1) (i + 1)
    else if b = 101 then
      if depth - 1 = 0 then some (i + 1) else scan_depth bs (depth - 1) (i + 1)
    else scan_depth bs depth (i + 1)

/-- `extract_info_dict` of `src/torrent/metainfo.rs`. -/
def extract_info_dict (data : List Nat) : Except BittorrentError (List Nat) :=
  match data with
  | [] => .error (.invalidTorrent "Info dict must start with d")
  | b :: _ =>
    if b ≠ 100 then .error (.invalidTorrent "Info dict must start with d")
    else
      match scan_depth data 0 0 with
      | none => .error (.invalidTorrent "Unterminated info dict")
      | some pos => .ok (data.take pos)

/-- The `windows(6).position(...)` search for the byte pattern `4:info`
inside `calculate_info_hash`. -/
def find_subslice (pat : List Nat) : List Nat → Nat → Option Nat
  | l, i =>
    if pat.isPrefixOf l then some i
    else
      match l with
      | [] => none
      | _ :: t => find_subslice pat t (i + 1)

/-- `calculate_info_hash` of `src/torrent/metainfo.rs`: find the first
occurrence of `4:info`, scan for the end of the following dictionary with
`extract_info_dict`, and hash those bytes with SHA-1. -/
def calculate_info_hash (raw_data : List Nat) : Except BittorrentError (List Nat) :=
  match find_subslice (ascii "4:info") raw_data 0 with
  | none => .error (.invalidTorrent "Info dict not found")
  | some idx =>
    match extract_info_dict (raw_data.drop (idx + 6)) with
    | .error e => .error e
    | .ok bytes => .ok (sha1 bytes)

/-- `Metainfo` of `src/torrent/metainfo.rs`. -/
structure Metainfo where
  announce : List Nat
  announce_list : Option (List (List (List Nat)))
  info : TorrentInfo
  info_hash : List Nat
deriving DecidableEq, Repr

/-- The optional `announce-list` extraction: tiers that are not lists and
URLs that are not UTF-8 strings are silently skipped (`filter_map`). -/
def announce_list_of (v : BencodeValue) : Option (List (List (List Nat))) :=
  v.as_list.map (fun list =>
    list.filterMap (fun tier =>
      tier.as_list.map (fun urls => urls.filterMap BencodeValue.as_str)))

/-- `Metainfo::from_bencode` of `src/torrent/metainfo.rs`. -/
def Metainfo.from_bencode (value : BencodeValue) (raw_data : List Nat) :
    Except BittorrentError Metainfo :=
  match value.as_dict with
  | none => .error (.invalidTorrent "Torrent must be a dict")
  | some dict =>
    match (btree_get dict (ascii "announce")).bind BencodeValue.as_str with
    | none => .error (.invalidTorrent "Missing announce field")
    | some announce =>
      match btree_get dict (ascii "info") with
      | none => .error (.invalidTorrent "Missing info field")
      | some info_value =>
        match TorrentInfo.from_bencode info_value with
        | .error e => .error e
        | .ok info =>
          match calculate_info_hash raw_data with
          | .error e => .error e
          | .ok info_hash =>
            .ok ⟨announce, (btree_get dict (ascii "announce-list")).bind announce_list_of,
              info, info_hash⟩

/-- `parse_torrent` of `src/torrent/mod.rs`. -/
def parse_torrent (data : List Nat) : Except BittorrentError Metainfo :=
  match decode data with
  | .error e => .error e
  | .ok value => Metainfo.from_bencode value data

deriving instance DecidableEq for Except

/-- The info-dictionary byte span of the specification's info-hash example:
`d4:name4:test12:piece lengthi16384e6:pieces20:AAAAAAAAAAAAAAAAAAAA6:lengthi1024ee`. -/
def c1_info_span : List Nat :=
  ascii "d4:name4:test12:piece lengthi16384e6:pieces20:AAAAAAAAAAAAAAAAAAAA6:lengthi1024ee"

/-- A complete torrent descriptor whose info value is `c1_info_span`. -/
def c1_torrent : List Nat := ascii "d8:announce7:http://4:info" ++ c1_info_span ++ [101]

set_option maxRecDepth 1000000 in
/-- C1 (code defect): for a torrent whose info dictionary is the
specification's example span, loading succeeds but the stored `info_hash`
is the SHA-1 of the seven bytes `d4:name` — the depth scanner of
`extract_info_dict` treats the `e` of `name` as a closing delimiter — and
that digest differs from the SHA-1 of the actual info-dictionary span. -/
theorem info_hash_differs_from_span_hash :
    (parse_torrent c1_torrent).map Metainfo.info_hash = .ok (sha1 (ascii "d4:name")) ∧
    extract_info_dict c1_info_span = .ok (ascii "d4:name") ∧
    sha1 (ascii "d4:name") ≠ sha1 c1_info_span := by
  refine ⟨by decide, by decide, by decide⟩

/-! ### Piece manager (`src/piece/mod.rs`, `src/piece/manager.rs`) -/

/-- `PieceState` of `src/piece/mod.rs`. -/
inductive PieceState
  | Missing
  | Downloading
  | Complete
deriving DecidableEq, Repr

/-- `BLOCK_SIZE` of `src/piece/mod.rs` (16 KiB). -/
def BLOCK_SIZE : Nat := 16 * 1024

/-- `PieceInfo` of `src/piece/mod.rs`. -/
structure PieceInfo where
  index : Nat
  length : Nat
  state : PieceState
  hash : List Nat
deriving DecidableEq, Repr

/-- `PieceManager` of `src/piece/manager.rs`; the `HashMap<usize, Vec<u8>>`
of in-progress buffers is modelled as an association list. -/
structure PieceManager where
  piece_length : Nat
  total_length : Nat
  pieces : List PieceInfo
  downloading : List (Nat × List Nat)
deriving DecidableEq, Repr

/-- `HashMap::get` on the association-list model. -/
def assoc_lookup : List (Nat × List Nat) → Nat → Option (List Nat)
  | [], _ => none
  | (k', v) :: t, k => if k' = k then some v else assoc_lookup t k

/-- In-place mutation through `HashMap::get_mut`: replace the value bound to
`k` (a `HashMap` never holds duplicate keys). -/
def assoc_update : List (Nat × List Nat) → Nat → List Nat → List (Nat × List Nat)
  | [], _, _ => []
  | (k', v') :: t, k, v =>
    if k' = k then (k', v) :: assoc_update t k v else (k', v') :: assoc_update t k v

/-- `HashMap::remove` (discarding the returned value is `remove` composed
with projection; `complete_piece` uses the returned buffer through
`assoc_lookup` first). -/
def assoc_erase : List (Nat × List Nat) → Nat → List (Nat × List Nat)
  | [], _ => []
  | (k', v') :: t, k => if k' = k then assoc_erase t k else (k', v') :: assoc_erase t k

/-- `HashMap::insert` of a key not yet present appends a binding. -/
def assoc_insert (m : List (Nat × List Nat)) (k : Nat) (v : List Nat) :
    List (Nat × List Nat) :=
  if (assoc_lookup m k).isSome then assoc_update m k v else m ++ [(k, v)]

/-- `PieceManager::new`: one `PieceInfo` per hash; the last piece gets the
remainder length when `total_length % piece_length ≠ 0`.  (When
`piece_length = 0` the Rust `%` would panic; `Nat` modulo returns the left
operand, and no claim touches that case.) -/
def PieceManager.new (piece_length total_length : Nat) (piece_hashes : List (List Nat)) :
    PieceManager :=
  let num_pieces := piece_hashes.length
  let pieces := piece_hashes.enum.map (fun ih =>
    let length :=
      if ih.1 = num_pieces - 1 then
        if total_length % piece_length = 0 then piece_length else total_length % piece_length
      else piece_length
    PieceInfo.mk ih.1 length .Missing ih.2)
  ⟨piece_length, total_length, pieces, []⟩

/-- `PieceManager::start_piece`.  The result is paired with the new state
(`&mut self` discipline: on error the state is returned unchanged). -/
def PieceManager.start_piece (m : PieceManager) (piece_index : Nat) :
    Except BittorrentError Unit × PieceManager :=
  if m.pieces.length ≤ piece_index then
    (.error (.pieceError "Invalid piece index"), m)
  else
    let piece := m.pieces.getD piece_index ⟨0, 0, .Missing, []⟩
    if piece.state ≠ .Missing then
      (.error (.pieceError "Piece already downloading or complete"), m)
    else
      (.ok (), { m with
        pieces := m.pieces.set piece_index { piece with state := .Downloading },
        downloading := assoc_insert m.downloading piece_index (List.replicate piece.length 0) })

/-- `PieceManager::add_block`: copy `data` into the buffer of a downloading
piece at `offset`, failing when the piece has no buffer or the write would
run past the end of the buffer. -/
def PieceManager.add_block (m : PieceManager) (piece_index offset : Nat) (data : List Nat) :
    Except BittorrentError Unit × PieceManager :=
  match assoc_lookup m.downloading piece_index with
  | none => (.error (.pieceError "Piece not being downloaded"), m)
  | some buf =>
    if buf.length < offset + data.length then
      (.error (.pieceError "Block exceeds piece size"), m)
    else
      (.ok (),
        { m with
          downloading :=
            assoc_update m.downloading piece_index
              (buf.take offset ++ data ++ buf.drop (offset + data.length)) })

/-- `PieceManager::complete_piece`: remove the buffer, hash it, and either
complete the piece (returning the bytes) or push it back to `Missing` with
a `PieceError`.  The `none` result models the Rust panic of
`self.pieces[piece_index]` on an out-of-range index, which is unreachable
through the public API (`start_piece` only inserts in-range keys). -/
def PieceManager.complete_piece (m : PieceManager) (piece_index : Nat) :
    Option (Except BittorrentError (List Nat) × PieceManager) :=
  match assoc_lookup m.downloading piece_index with
  | none => some (.error (.pieceError "Piece not being downloaded"), m)
  | some piece_data =>
    match m.pieces.get? piece_index with
    | none => none
    | some piece =>
      if sha1 piece_data ≠ piece.hash then
        some (.error (.pieceError "Piece hash verification failed"),
          { m with pieces := m.pieces.set piece_index { piece with state := .Missing },
                   downloading := assoc_erase m.downloading piece_index })
      else
        some (.ok piece_data,
          { m with pieces := m.pieces.set piece_index { piece with state := .Complete },
                   downloading := assoc_erase m.downloading piece_index })

theorem assoc_lookup_update_self (m : List (Nat × List Nat)) (k : Nat) (v : List Nat)
    (h : (assoc_lookup m k).isSome) : assoc_lookup (assoc_update m k v) k = some v := by
  induction m with
  | nil => simp [assoc_lookup] at h
  | cons p t ih =>
    obtain ⟨k', v'⟩ := p
    by_cases hk : k' = k
    · subst hk
      simp [assoc_update, assoc_lookup]
    · simp only [assoc_update, assoc_lookup, hk, if_false] at h ⊢
      exact ih h

theorem assoc_lookup_update_other (m : List (Nat × List Nat)) (k : Nat) (v : List Nat)
    (j : Nat) (h : j ≠ k) :
    assoc_lookup (assoc_update m k v) j = assoc_lookup m j := by
  induction m with
  | nil => rfl
  | cons p t ih =>
    obtain ⟨k', v'⟩ := p
    by_cases hk : k' = k
    · subst hk
      have hkj : ¬ k' = j := by omega
      simp only [assoc_update, if_pos rfl, assoc_lookup, hkj, if_false]
      exact ih
    · simp only [assoc_update, hk, if_false, assoc_lookup]
      by_cases hj : k' = j
      · simp [hj]
      · simp only [hj, if_false]
        exact ih

/-- The effect of `piece_data[offset..offset+data.len()].copy_from_slice(data)`
on each byte position: positions below `offset` and at or above
`offset + data.length` read the old buffer, positions inside the window read
`data`. -/
theorem writeBytes_getD (buf data : List Nat) (offset k : Nat)
    (h : offset + data.length ≤ buf.length) :
    (buf.take offset ++ data ++ buf.drop (offset + data.length)).getD k 0
      = if k < offset then buf.getD k 0
        else if k < offset + data.length then data.getD (k - offset) 0
        else buf.getD k 0 := by
  have hlt : (buf.take offset).length = offset := by
    rw [List.length_take]
    omega
  rw [List.append_assoc]
  by_cases h1 : k < offset
  · rw [if_pos h1, List.getD_eq_getElem?_getD, List.getD_eq_getElem?_getD,
      List.getElem?_append_left (by omega : k < (buf.take offset).length),
      List.getElem?_take_of_lt h1]
  · rw [if_neg h1, List.getD_eq_getElem?_getD,
      List.getElem?_append_right (by omega : (buf.take offset).length ≤ k), hlt]
    by_cases h2 : k < offset + data.length
    · rw [if_pos h2, List.getD_eq_getElem?_getD,
        List.getElem?_append_left (by omega : k - offset < data.length)]
    · rw [if_neg h2, List.getD_eq_getElem?_getD,
        List.getElem?_append_right (by omega : data.length ≤ k - offset),
        List.getElem?_drop]
      have : offset + data.length + (k - offset - data.length) = k := by omega
      rw [this]

/-- C2: for every piece index present in the downloading map,
`complete_piece` hashes the full accumulated buffer with SHA-1 and compares
it to the expected hash of that piece: on a match it sets the piece's state
to `Complete` and returns the buffer; on a mismatch it sets the state back
to `Missing` and returns a `PieceError`; in both branches the buffer is
removed from the downloading map. -/
theorem complete_piece_spec (m : PieceManager) (i : Nat) (buf : List Nat) (p : PieceInfo)
    (hbuf : assoc_lookup m.downloading i = some buf)
    (hp : m.pieces.get? i = some p) :
    PieceManager.complete_piece m i = some (
      if sha1 buf = p.hash then
        (.ok buf,
         { m with pieces := m.pieces.set i { p with state := .Complete },
                  downloading := assoc_erase m.downloading i })
      else
        (.error (.pieceError "Piece hash verification failed"),
         { m with pieces := m.pieces.set i { p with state := .Missing },
                  downloading := assoc_erase m.downloading i })) := by
  unfold PieceManager.complete_piece
  rw [hbuf, hp]
  by_cases h : sha1 buf = p.hash
  · simp [h]
  · simp [h]

/-- Witness for C2: a one-piece manager whose buffer hashes to the expected
value completes successfully. -/
theorem complete_piece_spec_witness :
    PieceManager.complete_piece
      ⟨4, 4, [⟨0, 4, .Downloading, sha1 [1, 2, 3, 4]⟩], [(0, [1, 2, 3, 4])]⟩ 0
      = some (.ok [1, 2, 3, 4],
        ⟨4, 4, [⟨0, 4, .Complete, sha1 [1, 2, 3, 4]⟩], []⟩) := by
  have h := complete_piece_spec
    ⟨4, 4, [⟨0, 4, .Downloading, sha1 [1, 2, 3, 4]⟩], [(0, [1, 2, 3, 4])]⟩ 0
    [1, 2, 3, 4] ⟨0, 4, .Downloading, sha1 [1, 2, 3, 4]⟩ rfl rfl
  rw [if_pos rfl] at h
  exact h

/-- C10: `add_block` on a piece with a buffer writes `data` at `offset` when
the write fits, changing only the bytes `[offset, offset + data.length)` of
that one buffer — the byte-level frame conditions, the other downloading
buffers, and the `pieces` list (hence every piece's state) are all
preserved, as the returned record update touches only the `downloading`
field.  When the piece has no buffer or the write overruns, an error is
returned and the manager is unchanged. -/
theorem add_block_spec (m : PieceManager) (i offset : Nat) (data : List Nat) :
    (∀ buf newbuf, assoc_lookup m.downloading i = some buf →
      newbuf = buf.take offset ++ data ++ buf.drop (offset + data.length) →
      offset + data.length ≤ buf.length →
      PieceManager.add_block m i offset data
        = (.ok (), { m with downloading := assoc_update m.downloading i newbuf }) ∧
      (assoc_update m.downloading i newbuf ≠ m.downloading →
        { m with downloading := assoc_update m.downloading i newbuf }.pieces = m.pieces) ∧
      assoc_lookup (assoc_update m.downloading i newbuf) i = some newbuf ∧
      (∀ j, j ≠ i →
        assoc_lookup (assoc_update m.downloading i newbuf) j = assoc_lookup m.downloading j) ∧
      newbuf.length = buf.length ∧
      (∀ k, k < offset ∨ offset + data.length ≤ k → newbuf.getD k 0 = buf.getD k 0) ∧
      (∀ k, k < data.length → newbuf.getD (offset + k) 0 = data.getD k 0)) ∧
    (assoc_lookup m.downloading i = none →
      PieceManager.add_block m i offset data
        = (.error (.pieceError "Piece not being downloaded"), m)) ∧
    (∀ buf, assoc_lookup m.downloading i = some buf → buf.length < offset + data.length →
      PieceManager.add_block m i offset data
        = (.error (.pieceError "Block exceeds piece size"), m)) := by
  refine ⟨?_, ?_, ?_⟩
  · intro buf newbuf hbuf hnew hle
    refine ⟨?_, fun _ => rfl, ?_, ?_, ?_, ?_, ?_⟩
    · unfold PieceManager.add_block
      simp only [hbuf]
      rw [if_neg (by omega : ¬ buf.length < offset + data.length), hnew]
    · rw [assoc_lookup_update_self]
      rw [hbuf]
      rfl
    · intro j hj
      exact assoc_lookup_update_other m.downloading i newbuf j hj
    · subst hnew
      simp only [List.length_append, List.length_take, List.length_drop]
      omega
    · intro k hk
      subst hnew
      rw [writeBytes_getD buf data offset k hle]
      rcases hk with h1 | h1
      · rw [if_pos h1]
      · rw [if_neg (by omega), if_neg (by omega)]
    · intro k hk
      subst hnew
      rw [writeBytes_getD buf data offset (offset + k) hle]
      rw [if_neg (by omega), if_pos (by omega)]
      congr 1
      omega
  · intro hnone
    unfold PieceManager.add_block
    simp only [hnone]
  · intro buf hbuf hlt
    unfold PieceManager.add_block
    simp only [hbuf]
    rw [if_pos hlt]

/-- Witness for C10: writing two bytes at offset 1 of a four-byte buffer. -/
theorem add_block_spec_witness :
    PieceManager.add_block ⟨4, 4, [⟨0, 4, .Downloading, []⟩], [(0, [0, 0, 0, 0])]⟩ 0 1 [7, 7]
      = (.ok (), ⟨4, 4, [⟨0, 4, .Downloading, []⟩], [(0, [0, 7, 7, 0])]⟩) := by
  have h := ((add_block_spec ⟨4, 4, [⟨0, 4, .Downloading, []⟩], [(0, [0, 0, 0, 0])]⟩
    0 1 [7, 7]).1 [0, 0, 0, 0] [0, 7, 7, 0] rfl (by decide) (by decide)).1
  exact h

/-! ### Piece picker (`src/piece/picker.rs`) and peer bitfields
(`src/peer/connection.rs`) -/

/-- `PiecePicker` of `src/piece/picker.rs`.  `piece_states` and
`piece_availability` always have length `total_pieces` (established by `new`
and preserved by every method); list reads use `getD`, whose default is
never consulted for such states, mirroring the panicking `Vec` index. -/
structure PiecePicker where
  total_pieces : Nat
  piece_states : List PieceState
  piece_availability : List Nat
  random_first : Bool
  downloaded_count : Nat
  endgame_mode : Bool
deriving DecidableEq, Repr

/-- `PiecePicker::new`. -/
def PiecePicker.new (total_pieces : Nat) : PiecePicker :=
  ⟨total_pieces, List.replicate total_pieces .Missing, List.replicate total_pieces 0,
   true, 0, false⟩

/-- `PiecePicker::has_piece_in_bitfield` (and the body of
`PeerConnection::has_piece`): MSB-first bit lookup, out-of-range bytes read
as absent. -/
def has_piece_in_bitfield (bitfield : List Nat) (piece_index : Nat) : Bool :=
  if piece_index / 8 < bitfield.length then
    (bitfield.getD (piece_index / 8) 0) >>> (7 - piece_index % 8) &&& 1 = 1
  else false

/-- One iteration of the `for piece_index in 0..self.total_pieces` loop of
`pick_piece_from_peer`: skip non-`Missing` pieces and pieces the peer lacks;
keep the strictly rarest piece seen so far (`availability < lowest`). -/
def pick_step (p : PiecePicker) (bf : List Nat) (acc : Option Nat × Nat)
    (piece_index : Nat) : Option Nat × Nat :=
  if p.piece_states.getD piece_index .Missing ≠ PieceState.Missing then acc
  else if ¬ (has_piece_in_bitfield bf piece_index = true) then acc
  else if p.piece_availability.getD piece_index 0 < acc.2 then
    (some piece_index, p.piece_availability.getD piece_index 0)
  else acc

/-- `PiecePicker::pick_piece_from_peer`: fold the loop above over the piece
indices in ascending order, starting from `(None, u32::MAX)`. -/
def PiecePicker.pick_piece_from_peer (p : PiecePicker) (peer_bitfield : List Nat) :
    Option Nat :=
  ((List.range p.total_pieces).foldl (pick_step p peer_bitfield) (none, 4294967295)).1

/-- `PeerState` of `src/peer/protocol.rs` (choking and interest flags). -/
structure PeerState where
  am_choking : Bool
  am_interested : Bool
  peer_choking : Bool
  peer_interested : Bool
deriving DecidableEq, Repr

/-- `PeerConnection` of `src/peer/connection.rs`, restricted to the fields
the verified operations read; the TCP stream and socket address are I/O
handles with no computational content. -/
structure PeerConnection where
  state : PeerState
  bitfield : Option (List Nat)
  peer_id : Option (List Nat)
deriving DecidableEq, Repr

/-- `PeerConnection::has_piece`: absent bitfield or out-of-range byte reads
as absent; otherwise the MSB-first bit test. -/
def PeerConnection.has_piece (c : PeerConnection) (piece_index : Nat) : Bool :=
  match c.bitfield with
  | some bitfield =>
    if piece_index / 8 < bitfield.length then
      (bitfield.getD (piece_index / 8) 0) >>> (7 - piece_index % 8) &&& 1 = 1
    else false
  | none => false

theorem pick_step_skip (p : PiecePicker) (bf : List Nat) (acc : Option Nat × Nat) (t : Nat)
    (h : p.piece_states.getD t .Missing ≠ PieceState.Missing ∨
      has_piece_in_bitfield bf t = false) :
    pick_step p bf acc t = acc := by
  unfold pick_step
  by_cases hst : p.piece_states.getD t .Missing ≠ PieceState.Missing
  · rw [if_pos hst]
  · rcases h with h | h
    · exact absurd h hst
    · rw [if_neg hst, if_pos (by simp [h])]

theorem pick_step_elig (p : PiecePicker) (bf : List Nat) (acc : Option Nat × Nat) (t : Nat)
    (hs : p.piece_states.getD t .Missing = PieceState.Missing)
    (hb : has_piece_in_bitfield bf t = true) :
    pick_step p bf acc t =
      if p.piece_availability.getD t 0 < acc.2 then
        (some t, p.piece_availability.getD t 0)
      else acc := by
  unfold pick_step
  rw [if_neg (fun hc => hc hs), if_neg (fun hc => hc hb)]

theorem pick_fold_inv (p : PiecePicker) (bf : List Nat)
    (havail : ∀ j, j < p.total_pieces → p.piece_availability.getD j 0 ≤ 4294967295) :
    ∀ n, n ≤ p.total_pieces →
    (((List.range n).foldl (pick_step p bf) (none, 4294967295)).1 = none →
      ((List.range n).foldl (pick_step p bf) (none, 4294967295)).2 = 4294967295 ∧
      (∀ j, j < n → p.piece_states.getD j .Missing = PieceState.Missing →
        has_piece_in_bitfield bf j = true → p.piece_availability.getD j 0 = 4294967295)) ∧
    (∀ i, ((List.range n).foldl (pick_step p bf) (none, 4294967295)).1 = some i →
      i < n ∧ p.piece_states.getD i .Missing = PieceState.Missing ∧
      has_piece_in_bitfield bf i = true ∧
      ((List.range n).foldl (pick_step p bf) (none, 4294967295)).2
        = p.piece_availability.getD i 0 ∧
      p.piece_availability.getD i 0 < 4294967295 ∧
      (∀ j, j < n → p.piece_states.getD j .Missing = PieceState.Missing →
        has_piece_in_bitfield bf j = true →
        p.piece_availability.getD i 0 ≤ p.piece_availability.getD j 0) ∧
      (∀ j, j < n → p.piece_states.getD j .Missing = PieceState.Missing →
        has_piece_in_bitfield bf j = true →
        p.piece_availability.getD j 0 = p.piece_availability.getD i 0 → i ≤ j)) := by
  intro n
  induction n with
  | zero =>
    intro _
    constructor
    · intro _
      exact ⟨rfl, fun j hj => absurd hj (by omega)⟩
    · intro i hi
      simp [List.range_zero, List.foldl_nil] at hi
  | succ n ih =>
    intro hn1
    obtain ⟨ihnone, ihsome⟩ := ih (by omega)
    rw [List.range_succ, List.foldl_append, List.foldl_cons, List.foldl_nil]
    by_cases helig : p.piece_states.getD n .Missing = PieceState.Missing ∧
        has_piece_in_bitfield bf n = true
    · obtain ⟨hs, hb⟩ := helig
      rw [pick_step_elig p bf _ n hs hb]
      have hr2 : ((List.range n).foldl (pick_step p bf) (none, 4294967295)).2 ≤ 4294967295 := by
        cases hr : ((List.range n).foldl (pick_step p bf) (none, 4294967295)).1 with
        | none => exact le_of_eq (ihnone hr).1
        | some i0 =>
          obtain ⟨hi0n, -, -, heq, -, -, -⟩ := ihsome i0 hr
          rw [heq]
          exact havail i0 (by omega)
      by_cases hlt : p.piece_availability.getD n 0
          < ((List.range n).foldl (pick_step p bf) (none, 4294967295)).2
      · rw [if_pos hlt]
        constructor
        · intro hcontra
          exact absurd hcontra (by simp)
        · intro i hi
          have hin : i = n := by
            have := hi
            simp only [Option.some.injEq] at this
            omega
          subst hin
          refine ⟨by omega, hs, hb, rfl, by omega, ?_, ?_⟩
          · intro j hj hjs hjb
            rcases Nat.lt_succ_iff_lt_or_eq.mp hj with hj' | hj'
            · cases hr : ((List.range i).foldl (pick_step p bf) (none, 4294967295)).1 with
              | none =>
                have h4 := (ihnone hr).2 j hj' hjs hjb
                have h5 := (ihnone hr).1
                omega
              | some i0 =>
                obtain ⟨-, -, -, heq, -, hmin, -⟩ := ihsome i0 hr
                have h4 := hmin j hj' hjs hjb
                omega
            · subst hj'
              exact le_refl _
          · intro j hj hjs hjb hje
            rcases Nat.lt_succ_iff_lt_or_eq.mp hj with hj' | hj'
            · cases hr : ((List.range i).foldl (pick_step p bf) (none, 4294967295)).1 with
              | none =>
                have h4 := (ihnone hr).2 j hj' hjs hjb
                have h5 := (ihnone hr).1
                omega
              | some i0 =>
                obtain ⟨-, -, -, heq, -, hmin, -⟩ := ihsome i0 hr
                have h4 := hmin j hj' hjs hjb
                omega
            · omega
      · rw [if_neg hlt]
        constructor
        · intro hrnone
          obtain ⟨h2, h3⟩ := ihnone hrnone
          refine ⟨h2, fun j hj hjs hjb => ?_⟩
          rcases Nat.lt_succ_iff_lt_or_eq.mp hj with hj' | hj'
          · exact h3 j hj' hjs hjb
          · subst hj'
            have := havail j (by omega)
            omega
        · intro i hri
          obtain ⟨hilt, his, hib, heq, hsmall, hmin, htie⟩ := ihsome i hri
          refine ⟨by omega, his, hib, heq, hsmall, ?_, ?_⟩
          · intro j hj hjs hjb
            rcases Nat.lt_succ_iff_lt_or_eq.mp hj with hj' | hj'
            · exact hmin j hj' hjs hjb
            · subst hj'
              omega
          · intro j hj hjs hjb hje
            rcases Nat.lt_succ_iff_lt_or_eq.mp hj with hj' | hj'
            · exact htie j hj' hjs hjb hje
            · omega
    · rw [pick_step_skip p bf _ n (by
        rcases Decidable.not_and_iff_or_not.mp helig with h | h
        · exact Or.inl h
        · exact Or.inr (by simpa using h))]
      have hnelig : ¬ (p.piece_states.getD n .Missing = PieceState.Missing ∧
          has_piece_in_bitfield bf n = true) := helig
      constructor
      · intro hrnone
        obtain ⟨h2, h3⟩ := ihnone hrnone
        refine ⟨h2, fun j hj hjs hjb => ?_⟩
        rcases Nat.lt_succ_iff_lt_or_eq.mp hj with hj' | hj'
        · exact h3 j hj' hjs hjb
        · subst hj'
          exact absurd ⟨hjs, hjb⟩ hnelig
      · intro i hri
        obtain ⟨hilt, his, hib, heq, hsmall, hmin, htie⟩ := ihsome i hri
        refine ⟨by omega, his, hib, heq, hsmall, ?_, ?_⟩
        · intro j hj hjs hjb
          rcases Nat.lt_succ_iff_lt_or_eq.mp hj with hj' | hj'
          · exact hmin j hj' hjs hjb
          · subst hj'
            exact absurd ⟨hjs, hjb⟩ hnelig
        · intro j hj hjs hjb hje
          rcases Nat.lt_succ_iff_lt_or_eq.mp hj with hj' | hj'
          · exact htie j hj' hjs hjb hje
          · subst hj'
            exact absurd ⟨hjs, hjb⟩ hnelig

/-- C8 amended: `pick_piece_from_peer` returns `some i` only when piece `i`
is `Missing`, present in the peer's bitfield, of availability strictly
below `u32::MAX`, and of minimal availability among eligible pieces, with
ties broken by lowest index; and it returns `none` exactly when every
eligible piece has availability `u32::MAX` — in particular whenever no
eligible piece exists, but also when every eligible piece's availability
equals the loop's initial `u32::MAX` sentinel. -/
theorem pick_piece_from_peer_spec (p : PiecePicker) (bf : List Nat)
    (havail : ∀ j, j < p.total_pieces → p.piece_availability.getD j 0 ≤ 4294967295) :
    (∀ i, p.pick_piece_from_peer bf = some i →
      i < p.total_pieces ∧ p.piece_states.getD i .Missing = PieceState.Missing ∧
      has_piece_in_bitfield bf i = true ∧
      p.piece_availability.getD i 0 < 4294967295 ∧
      (∀ j, j < p.total_pieces → p.piece_states.getD j .Missing = PieceState.Missing →
        has_piece_in_bitfield bf j = true →
        p.piece_availability.getD i 0 ≤ p.piece_availability.getD j 0 ∧
        (p.piece_availability.getD j 0 = p.piece_availability.getD i 0 → i ≤ j))) ∧
    (p.pick_piece_from_peer bf = none ↔
      (∀ j, j < p.total_pieces → p.piece_states.getD j .Missing = PieceState.Missing →
        has_piece_in_bitfield bf j = true → p.piece_availability.getD j 0 = 4294967295)) := by
  have h := pick_fold_inv p bf havail p.total_pieces (le_refl _)
  unfold PiecePicker.pick_piece_from_peer
  constructor
  · intro i hi
    obtain ⟨h1, h2, h3, -, hsmall, hmin, htie⟩ := h.2 i hi
    exact ⟨h1, h2, h3, hsmall,
      fun j hj hjs hjb => ⟨hmin j hj hjs hjb, htie j hj hjs hjb⟩⟩
  · constructor
    · intro hn
      exact (h.1 hn).2
    · intro hall
      cases hsome : ((List.range p.total_pieces).foldl (pick_step p bf) (none, 4294967295)).1 with
      | none => rfl
      | some i =>
        obtain ⟨h1, h2, h3, -, hsmall, -, -⟩ := h.2 i hsome
        have hmax := hall i h1 h2 h3
        omega

/-- Witness for C8: on a three-piece picker where the peer has all pieces,
piece 1 (availability 2, the rarest missing piece) is selected, and it is
indeed `Missing`. -/
theorem pick_piece_from_peer_spec_witness :
    (PiecePicker.mk 3 [.Missing, .Missing, .Complete] [5, 2, 1] true 0 false).piece_states.getD 1
      .Missing = PieceState.Missing :=
  ((pick_piece_from_peer_spec ⟨3, [.Missing, .Missing, .Complete], [5, 2, 1], true, 0, false⟩
    [224] (by decide)).1 1 rfl).2.1

/-- C8 counterexample: a picker whose single piece is `Missing`, present in
the peer's bitfield, and has availability `u32::MAX` — an eligible piece
exists, yet `pick_piece_from_peer` returns `none`, because the loop's
initial lowest-availability sentinel is also `u32::MAX` and only strictly
smaller availabilities are selected. -/
theorem pick_piece_sentinel_none :
    PiecePicker.pick_piece_from_peer ⟨1, [.Missing], [4294967295], true, 0, false⟩ [128]
      = none ∧
    (0 : Nat) < 1 ∧
    (PiecePicker.mk 1 [.Missing] [4294967295] true 0 false).piece_states.getD 0 .Missing
      = PieceState.Missing ∧
    has_piece_in_bitfield [128] 0 = true := by decide

/-- C9: bitfield lookup is MSB-first within each byte — index `i` is present
exactly when byte `i / 8` exists and its bit `7 - i % 8` is set — both in
the picker's `has_piece_in_bitfield` and in `PeerConnection::has_piece`;
with the 20-piece example bitfield `[0xFF, 0xF0, 0x00]`, pieces 0..11 are
present and 12..19 absent; and any index whose byte lies past the end of
the bitfield reads as absent rather than erroring. -/
theorem bitfield_msb_first_lookup :
    (∀ bf i, has_piece_in_bitfield bf i = true ↔
      (i / 8 < bf.length ∧ (bf.getD (i / 8) 0).testBit (7 - i % 8) = true)) ∧
    (∀ c : PeerConnection, ∀ bf i, c.bitfield = some bf →
      c.has_piece i = has_piece_in_bitfield bf i) ∧
    (∀ c : PeerConnection, c.bitfield = none → ∀ i, c.has_piece i = false) ∧
    (∀ i, i < 12 → has_piece_in_bitfield [255, 240, 0] i = true) ∧
    (∀ i, i < 20 → 12 ≤ i → has_piece_in_bitfield [255, 240, 0] i = false) ∧
    (∀ bf i, bf.length ≤ i / 8 → has_piece_in_bitfield bf i = false) := by
  refine ⟨?_, ?_, ?_, by decide, by decide, ?_⟩
  · intro bf i
    unfold has_piece_in_bitfield
    by_cases h : i / 8 < bf.length
    · rw [if_pos h]
      simp only [decide_eq_true_eq, h, true_and]
      rw [Nat.testBit_to_div_mod, Nat.shiftRight_eq_div_pow, Nat.and_one_is_mod]
      simp
    · rw [if_neg h]
      simp [h]
  · intro c bf i hbf
    unfold PeerConnection.has_piece has_piece_in_bitfield
    rw [hbf]
  · intro c hbf i
    unfold PeerConnection.has_piece
    rw [hbf]
  · intro bf i h
    unfold has_piece_in_bitfield
    rw [if_neg (by omega)]

/-- Witness for C9: index 24 reads a byte past the end of the example
bitfield and is reported absent. -/
theorem bitfield_msb_first_lookup_witness :
    has_piece_in_bitfield [255, 240, 0] 24 = false :=
  bitfield_msb_first_lookup.2.2.2.2.2 [255, 240, 0] 24 (by decide)

/-! ### Peer wire protocol (`src/peer/protocol.rs`, `src/peer/message.rs`) -/

/-- `PROTOCOL_STRING` (`BitTorrent protocol`, 19 bytes). -/
def PROTOCOL_STRING : List Nat :=
  [66, 105, 116, 84, 111, 114, 114, 101, 110, 116, 32, 112, 114, 111, 116, 111, 99, 111, 108]

/-- `Handshake` of `src/peer/protocol.rs` (`[u8; 20]` fields are byte lists
of length 20). -/
structure Handshake where
  info_hash : List Nat
  peer_id : List Nat
deriving DecidableEq, Repr

/-- `Handshake::to_bytes`: pstrlen, protocol string, 8 reserved zero bytes,
info hash, peer id (68 bytes in all). -/
def Handshake.to_bytes (h : Handshake) : List Nat :=
  (PROTOCOL_STRING.length % 256) ::
    (PROTOCOL_STRING ++ (List.replicate 8 0 ++ (h.info_hash ++ h.peer_id)))

/-- `Handshake::from_bytes`. -/
def Handshake.from_bytes (data : List Nat) : Except BittorrentError Handshake :=
  if data.length < 68 then .error (.peerError "Handshake too short")
  else if data.getD 0 0 ≠ PROTOCOL_STRING.length then
    .error (.peerError "Invalid protocol string length")
  else if (data.drop 1).take (data.getD 0 0) ≠ PROTOCOL_STRING then
    .error (.peerError "Invalid protocol string")
  else .ok ⟨(data.drop 28).take 20, (data.drop 48).take 20⟩

/-- `BlockInfo` of `src/peer/message.rs` (`u32` fields). -/
structure BlockInfo where
  piece_index : Nat
  offset : Nat
  length : Nat
deriving DecidableEq, Repr

/-- `PeerMessage` of `src/peer/message.rs`. -/
inductive PeerMessage
  | KeepAlive
  | Choke
  | Unchoke
  | Interested
  | NotInterested
  | Have (piece_index : Nat)
  | Bitfield (bitfield : List Nat)
  | Request (block : BlockInfo)
  | Piece (piece_index offset : Nat) (data : List Nat)
  | Cancel (block : BlockInfo)
deriving DecidableEq, Repr

/-- `PeerMessage::to_bytes`: 4-byte big-endian length prefix, message id,
payload.  The length prefixes of `Bitfield` and `Piece` are computed with
`as u32` casts of `1 + bitfield.len()` and `9 + data.len()`, hence the
explicit `% 2^32`. -/
def PeerMessage.to_bytes : PeerMessage → List Nat
  | .KeepAlive => be32 0
  | .Choke => be32 1 ++ [0]
  | .Unchoke => be32 1 ++ [1]
  | .Interested => be32 1 ++ [2]
  | .NotInterested => be32 1 ++ [3]
  | .Have pi => be32 5 ++ 4 :: be32 pi
  | .Bitfield bf => be32 ((1 + bf.length) % 2 ^ 32) ++ 5 :: bf
  | .Request b => be32 13 ++ 6 :: (be32 b.piece_index ++ be32 b.offset ++ be32 b.length)
  | .Piece pi off d => be32 ((9 + d.length) % 2 ^ 32) ++ 7 :: (be32 pi ++ be32 off ++ d)
  | .Cancel b => be32 13 ++ 8 :: (be32 b.piece_index ++ be32 b.offset ++ be32 b.length)

/-- `PeerMessage::from_bytes`.  `bytes::Buf::get_u32`/`get_u8` reads advance
through the slice; they are modelled with `take`/`drop`.  The empty-`rest`
arm mirrors the panic `get_u8` would raise and is unreachable because
`rest.length ≥ length ≥ 1` there. -/
def PeerMessage.from_bytes (data : List Nat) : Except BittorrentError PeerMessage :=
  if data.length < 4 then .error (.peerError "Message too short")
  else
    if word_of_bytes (data.take 4) = 0 then .ok .KeepAlive
    else if (data.drop 4).length < word_of_bytes (data.take 4) then
      .error (.peerError "Incomplete message")
    else
      match data.drop 4 with
      | [] => .error (.peerError "Incomplete message")
      | message_id :: rest1 =>
        if message_id = 0 then .ok .Choke
        else if message_id = 1 then .ok .Unchoke
        else if message_id = 2 then .ok .Interested
        else if message_id = 3 then .ok .NotInterested
        else if message_id = 4 then
          if rest1.length < 4 then .error (.peerError "Invalid Have message")
          else .ok (.Have (word_of_bytes (rest1.take 4)))
        else if message_id = 5 then .ok (.Bitfield rest1)
        else if message_id = 6 then
          if rest1.length < 12 then .error (.peerError "Invalid Request message")
          else .ok (.Request ⟨word_of_bytes (rest1.take 4),
            word_of_bytes ((rest1.drop 4).take 4), word_of_bytes ((rest1.drop 8).take 4)⟩)
        else if message_id = 7 then
          if rest1.length < 8 then .error (.peerError "Invalid Piece message")
          else .ok (.Piece (word_of_bytes (rest1.take 4))
            (word_of_bytes ((rest1.drop 4).take 4)) (rest1.drop 8))
        else if message_id = 8 then
          if rest1.length < 12 then .error (.peerError "Invalid Cancel message")
          else .ok (.Cancel ⟨word_of_bytes (rest1.take 4),
            word_of_bytes ((rest1.drop 4).take 4), word_of_bytes ((rest1.drop 8).take 4)⟩)
        else .error (.peerError "Unknown message ID")

theorem word_of_bytes_be32 (n : Nat) : word_of_bytes (be32 n) = n % 2 ^ 32 := by
  simp [word_of_bytes, be32]
  omega

/-- The `u32`-typed fields of a message are in range, and the encoded length
prefix does not truncate to zero (`Bitfield` of `2^32 - 1` bytes and `Piece`
of `2^32 - 9` data bytes are the only in-memory values violating the latter). -/
def msg_wf : PeerMessage → Prop
  | .Have pi => pi < 2 ^ 32
  | .Bitfield bf => (1 + bf.length) % 2 ^ 32 ≠ 0
  | .Request b => b.piece_index < 2 ^ 32 ∧ b.offset < 2 ^ 32 ∧ b.length < 2 ^ 32
  | .Piece pi off d => pi < 2 ^ 32 ∧ off < 2 ^ 32 ∧ (9 + d.length) % 2 ^ 32 ≠ 0
  | .Cancel b => b.piece_index < 2 ^ 32 ∧ b.offset < 2 ^ 32 ∧ b.length < 2 ^ 32
  | _ => True

theorem handshake_to_bytes_from_bytes (hs : Handshake) (h1 : hs.info_hash.length = 20)
    (h2 : hs.peer_id.length = 20) :
    Handshake.from_bytes (Handshake.to_bytes hs) = .ok hs := by
  obtain ⟨ih, pid⟩ := hs
  dsimp only at h1 h2
  unfold Handshake.from_bytes
  have hlen : (Handshake.to_bytes ⟨ih, pid⟩).length = 68 := by
    simp [Handshake.to_bytes, PROTOCOL_STRING, h1, h2]
  rw [if_neg (by rw [hlen]; omega)]
  rw [if_neg (fun hne => hne rfl)]
  rw [if_neg (fun hne => hne (by
    show ((Handshake.to_bytes ⟨ih, pid⟩).drop 1).take (PROTOCOL_STRING.length % 256)
      = PROTOCOL_STRING
    rfl))]
  have e1 : (Handshake.to_bytes ⟨ih, pid⟩).drop 28 = ih ++ pid := rfl
  have e2 : (Handshake.to_bytes ⟨ih, pid⟩).drop 48 = (ih ++ pid).drop 20 := rfl
  have e3 : (ih ++ pid).take 20 = ih := by
    rw [← h1]
    exact List.take_left ih pid
  have e4 : (ih ++ pid).drop 20 = pid := by
    rw [← h1]
    exact List.drop_left ih pid
  have e5 : pid.take 20 = pid := by
    rw [← h2]
    exact List.take_length pid
  rw [e1, e2, e3, e4, e5]

theorem peer_message_to_bytes_from_bytes (m : PeerMessage) (hw : msg_wf m) :
    PeerMessage.from_bytes (PeerMessage.to_bytes m) = .ok m := by
  cases m with
  | KeepAlive => rfl
  | Choke => rfl
  | Unchoke => rfl
  | Interested => rfl
  | NotInterested => rfl
  | Have pi =>
    have hpi : pi < 2 ^ 32 := hw
    have h : PeerMessage.from_bytes (PeerMessage.to_bytes (.Have pi))
        = .ok (.Have (word_of_bytes (be32 pi))) := rfl
    rw [h, word_of_bytes_be32, Nat.mod_eq_of_lt hpi]
  | Request b =>
    obtain ⟨h1, h2, h3⟩ := hw
    obtain ⟨bp, bo, bl⟩ := b
    have h : PeerMessage.from_bytes (PeerMessage.to_bytes (.Request ⟨bp, bo, bl⟩))
        = .ok (.Request ⟨word_of_bytes (be32 bp), word_of_bytes (be32 bo),
            word_of_bytes (be32 bl)⟩) := rfl
    rw [h, word_of_bytes_be32, word_of_bytes_be32, word_of_bytes_be32,
      Nat.mod_eq_of_lt h1, Nat.mod_eq_of_lt h2, Nat.mod_eq_of_lt h3]
  | Cancel b =>
    obtain ⟨h1, h2, h3⟩ := hw
    obtain ⟨bp, bo, bl⟩ := b
    have h : PeerMessage.from_bytes (PeerMessage.to_bytes (.Cancel ⟨bp, bo, bl⟩))
        = .ok (.Cancel ⟨word_of_bytes (be32 bp), word_of_bytes (be32 bo),
            word_of_bytes (be32 bl)⟩) := rfl
    rw [h, word_of_bytes_be32, word_of_bytes_be32, word_of_bytes_be32,
      Nat.mod_eq_of_lt h1, Nat.mod_eq_of_lt h2, Nat.mod_eq_of_lt h3]
  | Bitfield bf =>
    have hwb : (1 + bf.length) % 2 ^ 32 ≠ 0 := hw
    unfold PeerMessage.to_bytes PeerMessage.from_bytes
    have ht : (be32 ((1 + bf.length) % 2 ^ 32) ++ 5 :: bf).take 4
        = be32 ((1 + bf.length) % 2 ^ 32) := rfl
    have hd : (be32 ((1 + bf.length) % 2 ^ 32) ++ 5 :: bf).drop 4 = 5 :: bf := rfl
    rw [if_neg (by simp [be32]), ht, word_of_bytes_be32,
      if_neg (by omega), hd, if_neg (by simp only [List.length_cons]; omega)]
    norm_num
  | Piece pi off d =>
    obtain ⟨h1, h2, h3⟩ := hw
    unfold PeerMessage.to_bytes PeerMessage.from_bytes
    have ht : (be32 ((9 + d.length) % 2 ^ 32) ++ 7 :: (be32 pi ++ be32 off ++ d)).take 4
        = be32 ((9 + d.length) % 2 ^ 32) := rfl
    have hd : (be32 ((9 + d.length) % 2 ^ 32) ++ 7 :: (be32 pi ++ be32 off ++ d)).drop 4
        = 7 :: (be32 pi ++ be32 off ++ d) := rfl
    have ha : (be32 pi ++ be32 off ++ d).take 4 = be32 pi := rfl
    have hb : ((be32 pi ++ be32 off ++ d).drop 4).take 4 = be32 off := rfl
    have hc : (be32 pi ++ be32 off ++ d).drop 8 = d := rfl
    rw [if_neg (by simp [be32]), ht, word_of_bytes_be32,
      if_neg (by omega), hd, if_neg (by simp only [List.length_cons]; simp [be32]; omega)]
    norm_num
    rw [if_neg (by simp [be32]; omega)]
    have ha2 : (be32 pi ++ (be32 off ++ d)).take 4 = be32 pi := rfl
    have hb2 : ((be32 pi ++ (be32 off ++ d)).drop 4).take 4 = be32 off := rfl
    have hc2 : (be32 pi ++ (be32 off ++ d)).drop 8 = d := rfl
    rw [ha2, hb2, hc2, word_of_bytes_be32, word_of_bytes_be32,
      Nat.mod_eq_of_lt h1, Nat.mod_eq_of_lt h2]

/-- C7 amended: wire serialization round-trips for every handshake (its
`[u8; 20]` fields have length 20) and for every peer message whose `u32`
fields are in range and whose encoded length prefix does not truncate to
zero under the `as u32` cast — every message other than a `Bitfield` of
exactly `2^32 - 1` bytes or a `Piece` with `2^32 - 9` data bytes. -/
theorem wire_serialization_roundtrip :
    (∀ hs : Handshake, hs.info_hash.length = 20 → hs.peer_id.length = 20 →
      Handshake.from_bytes (Handshake.to_bytes hs) = .ok hs) ∧
    (∀ m : PeerMessage, msg_wf m →
      PeerMessage.from_bytes (PeerMessage.to_bytes m) = .ok m) :=
  ⟨handshake_to_bytes_from_bytes, peer_message_to_bytes_from_bytes⟩

/-- Witness for C7: the concrete handshake with `info_hash = [1]*20`,
`peer_id = [2]*20` and the concrete `Request` message round-trip. -/
theorem wire_serialization_roundtrip_witness :
    Handshake.from_bytes (Handshake.to_bytes ⟨List.replicate 20 1, List.replicate 20 2⟩)
      = .ok ⟨List.replicate 20 1, List.replicate 20 2⟩ ∧
    PeerMessage.from_bytes (PeerMessage.to_bytes (.Request ⟨1, 2, 3⟩))
      = .ok (.Request ⟨1, 2, 3⟩) :=
  ⟨wire_serialization_roundtrip.1 ⟨List.replicate 20 1, List.replicate 20 2⟩
      (by simp) (by simp),
   wire_serialization_roundtrip.2 (.Request ⟨1, 2, 3⟩) (by exact ⟨by norm_num, by norm_num, by norm_num⟩)⟩


theorem bitfield_wrapped_length_word (bf : List Nat) (h : (1 + bf.length) % 2 ^ 32 = 0) :
    PeerMessage.from_bytes (PeerMessage.to_bytes (.Bitfield bf)) = .ok .KeepAlive := by
  have harm : PeerMessage.to_bytes (.Bitfield bf) = be32 0 ++ 5 :: bf := by
    simp only [PeerMessage.to_bytes, h]
  rw [harm]
  unfold PeerMessage.from_bytes
  rw [if_neg (by simp [be32])]
  have ht : (be32 0 ++ 5 :: bf).take 4 = be32 0 := rfl
  rw [ht, if_pos (by decide)]

/-- C7 counterexample: a `Bitfield` message whose bitfield holds exactly
`2^32 - 1` bytes (constructible in memory on a 64-bit target) encodes a
length prefix of `(1 + (2^32 - 1)) as u32 = 0`, so its own serialization
deserializes as a keep-alive — `from_bytes (to_bytes m) ≠ ok m`. -/
theorem bitfield_length_prefix_truncation :
    PeerMessage.from_bytes (PeerMessage.to_bytes (.Bitfield (List.replicate (2 ^ 32 - 1) 0)))
      = .ok .KeepAlive ∧
    PeerMessage.KeepAlive ≠ PeerMessage.Bitfield (List.replicate (2 ^ 32 - 1) 0) :=
  ⟨bitfield_wrapped_length_word (List.replicate (2 ^ 32 - 1) 0)
      (by rw [List.length_replicate]; norm_num),
   fun hcon => PeerMessage.noConfusion hcon⟩

/-- A structurally valid info dictionary (keys in sorted order) whose
`piece length` value is the parameter `n`. -/
def infoDict_with_piece_length (n : Int) : BencodeValue :=
  .dict [(ascii "length", .integer 1024), (ascii "name", .string (ascii "test")),
         (ascii "piece length", .integer n),
         (ascii "pieces", .string (List.replicate 20 65))]

/-- C4 amended: `TorrentInfo::from_bencode` performs no validation of
`piece length`: for every integer `n ≤ 0`, a structurally valid info
dictionary with `piece length = n` loads successfully, and the stored
`piece_length` is the two's-complement `u64` cast of `n`. -/
theorem from_bencode_accepts_nonpositive_piece_length (n : Int) (h : n ≤ 0) :
    TorrentInfo.from_bencode (infoDict_with_piece_length n)
      = .ok ⟨ascii "test", toU64 n, [List.replicate 20 65],
          [⟨[ascii "test"], 1024⟩], 1024⟩ := rfl

/-- Witness for C4 at `piece length = -16384`: loading succeeds and stores
`2^64 - 16384`. -/
theorem from_bencode_accepts_nonpositive_piece_length_witness :
    (-16384 : Int) ≤ 0 ∧
    TorrentInfo.from_bencode (infoDict_with_piece_length (-16384))
      = .ok ⟨ascii "test", toU64 (-16384), [List.replicate 20 65],
          [⟨[ascii "test"], 1024⟩], 1024⟩ :=
  ⟨by norm_num, from_bencode_accepts_nonpositive_piece_length (-16384) (by norm_num)⟩

/-- A complete torrent descriptor whose info dictionary carries
`piece length` 0. -/
def c4_torrent : List Nat :=
  ascii "d8:announce3:url4:infod6:lengthi1024e4:name4:test12:piece lengthi0e6:pieces20:AAAAAAAAAAAAAAAAAAAAee"

set_option maxRecDepth 1000000 in
/-- C4 counterexample: the torrent with `piece length` 0 loads into a
`Metainfo` value (no `InvalidTorrent` error), with `piece_length = 0`. -/
theorem zero_piece_length_torrent_loads :
    (parse_torrent c4_torrent).isOk = true ∧
    (parse_torrent c4_torrent).map (fun m => m.info.piece_length) = .ok 0 := by
  refine ⟨by decide, by decide⟩

/-- An info dictionary carrying both a `length` key and a `files` key
(keys in sorted order). -/
def c5_info_both : BencodeValue :=
  .dict [(ascii "files", .list [.dict [(ascii "length", .integer 512),
            (ascii "path", .list [.string (ascii "a.txt")])]]),
         (ascii "length", .integer 1024),
         (ascii "name", .string (ascii "test")),
         (ascii "piece length", .integer 16384),
         (ascii "pieces", .string (List.replicate 20 65))]

/-- C5 counterexample: with both `length` and `files` present, loading
succeeds in single-file mode (the `files` list is ignored) instead of
failing with `InvalidTorrent`. -/
theorem both_length_and_files_loads :
    TorrentInfo.from_bencode c5_info_both
      = .ok ⟨ascii "test", 16384, [List.replicate 20 65],
          [⟨[ascii "test"], 1024⟩], 1024⟩ := rfl

theorem parse_file_entries_no_missing_field (l : List BencodeValue) :
    ∀ (acc : List FileInfo) (total : Nat),
    parse_file_entries l acc total ≠ .error (.invalidTorrent "Missing length or files field") := by
  induction l with
  | nil =>
    intro acc total
    simp [parse_file_entries]
  | cons fv t ih =>
    intro acc total
    unfold parse_file_entries
    cases hd : fv.as_dict with
    | none => simp
    | some fd =>
      cases hlen : (btree_get fd (ascii "length")).bind BencodeValue.as_integer with
      | none => simp [hlen]
      | some len =>
        cases hpath : (btree_get fd (ascii "path")).bind BencodeValue.as_list with
        | none => simp [hlen, hpath]
        | some pl2 =>
          cases hcomp : path_components pl2 with
          | none => simp [hlen, hpath, hcomp]
          | some path =>
            simp only [hlen, hpath, hcomp]
            exact ih _ _

/-- C5 amended: provided the other required fields parse, the `length` key
is tested first, so whenever `length` is present — in particular when both
`length` and `files` are present — loading succeeds in single-file mode
with a result computed from `length` alone (the `files` list is ignored);
the missing-field `InvalidTorrent` error is returned exactly when both
keys are absent; and multi-file mode applies exactly when `length` is
absent, `files` is present, and its entries parse. -/
theorem length_files_branching :
    ∀ d nm pl pb pcs,
      (btree_get d (ascii "name")).bind BencodeValue.as_str = some nm →
      (btree_get d (ascii "piece length")).bind BencodeValue.as_integer = some pl →
      (btree_get d (ascii "pieces")).bind BencodeValue.as_bytes = some pb →
      pieces_from_bytes pb = .ok pcs →
      ((∀ lv len, btree_get d (ascii "length") = some lv →
          lv.as_integer = some len →
          TorrentInfo.from_bencode (.dict d)
            = .ok ⟨nm, toU64 pl, pcs, [⟨[nm], toU64 len⟩], toU64 len⟩) ∧
       (TorrentInfo.from_bencode (.dict d)
            = .error (.invalidTorrent "Missing length or files field")
          ↔ (btree_get d (ascii "length") = none ∧
             btree_get d (ascii "files") = none)) ∧
       (∀ fv flist files total, btree_get d (ascii "length") = none →
          btree_get d (ascii "files") = some fv →
          fv.as_list = some flist →
          parse_file_entries flist [] 0 = .ok (files, total) →
          TorrentInfo.from_bencode (.dict d)
            = .ok ⟨nm, toU64 pl, pcs, files, total⟩)) := by
  intro d nm pl pb pcs h1 h2 h3 h4
  refine ⟨?_, ⟨?_, ?_⟩, ?_⟩
  · intro lv len hlv hlen
    unfold TorrentInfo.from_bencode
    simp only [BencodeValue.as_dict, h1, h2, h3, h4, hlv, hlen]
  · intro herr
    cases hl : btree_get d (ascii "length") with
    | some lv =>
      exfalso
      unfold TorrentInfo.from_bencode at herr
      simp only [BencodeValue.as_dict, h1, h2, h3, h4, hl] at herr
      cases hi : lv.as_integer with
      | none =>
        simp only [hi] at herr
        exact absurd herr (by decide)
      | some len =>
        simp only [hi] at herr
        exact Except.noConfusion herr
    | none =>
      cases hf : btree_get d (ascii "files") with
      | some fv =>
        exfalso
        unfold TorrentInfo.from_bencode at herr
        simp only [BencodeValue.as_dict, h1, h2, h3, h4, hl, hf] at herr
        cases hfl : fv.as_list with
        | none =>
          simp only [hfl] at herr
          exact absurd herr (by decide)
        | some flist =>
          simp only [hfl] at herr
          cases hpe : parse_file_entries flist [] 0 with
          | error e =>
            simp only [hpe] at herr
            have he : e = .invalidTorrent "Missing length or files field" := by
              injection herr
            exact parse_file_entries_no_missing_field flist [] 0 (he ▸ hpe)
          | ok p2 =>
            obtain ⟨files2, total2⟩ := p2
            simp only [hpe] at herr
            exact Except.noConfusion herr
      | none => exact ⟨rfl, rfl⟩
  · rintro ⟨hl, hf⟩
    unfold TorrentInfo.from_bencode
    simp only [BencodeValue.as_dict, h1, h2, h3, h4, hl, hf]
  · intro fv flist files total hl hf hfl hpe
    unfold TorrentInfo.from_bencode
    simp only [BencodeValue.as_dict, h1, h2, h3, h4, hl, hf, hfl, hpe]

/-- Witness for C5's amended both-absent clause at a concrete dictionary
with neither `length` nor `files`. -/
theorem length_files_branching_witness :
    TorrentInfo.from_bencode (.dict [(ascii "name", .string (ascii "test")),
        (ascii "piece length", .integer 16384),
        (ascii "pieces", .string (List.replicate 20 65))])
      = .error (.invalidTorrent "Missing length or files field") :=
  (length_files_branching
    [(ascii "name", .string (ascii "test")), (ascii "piece length", .integer 16384),
     (ascii "pieces", .string (List.replicate 20 65))]
    (ascii "test") 16384 (List.replicate 20 65) [List.replicate 20 65]
    rfl rfl rfl rfl).2.1.mpr ⟨rfl, rfl⟩
